import Mathlib

/-!
Verification of the repo2text core pipeline (repository `enotkrutoy/repo2text`).

This file shallowly embeds the pure core of the application:
`buildTree`, `buildAsciiIndex`, the selection-status derivation
(`selectionStatusMap` / `compute`), `handleToggle`, `generateOutput`
(its pure formatting and control flow), and `fetchFileContents`
(its chunked concurrency structure, with the network modelled as an
environment from URL to outcome).

Modelling conventions:
* JavaScript strings are Lean `String`s; `path.split(sep)` for a one
  character separator is `splitStr sep path`, defined over `List Char`
  exactly as JS splits (`"".split(s) = [""]`, trailing separators give a
  trailing empty segment); `Array.join('/')` is `joinSegs`.
* A JS object used as a string-keyed map of children is modelled as a
  `List TreeNode` in insertion order, looked up by child name (the code
  always keys a child by its `name`).  JS enumerates non-index-like keys
  in insertion order; path segments that look like array indices would
  be enumerated first by JS, which this model does not reproduce — all
  theorems and concrete inputs below use non-index segment names.
* The selection object maps paths to booleans with absent keys falsy;
  it is modelled as a total function `String → Bool`.
* `fetch` is modelled as an environment `String → FetchResult` keyed by
  URL; a rejected promise is `FetchResult.netError`, a settled response
  is `FetchResult.response ok body mimeType`.  `Promise.all` rejection
  is determinized to the first error in list order.
-/

/-! # Definitions -/

/-! ## Splitting and joining on a separator character (JS `split`/`join`) -/

/-- JS `s.split(sep)` at the `List Char` level, for a one-character
separator: always returns a nonempty list of separator-free segments. -/
def splitCore (sep : Char) : List Char → List (List Char)
  | [] => [[]]
  | c :: cs =>
    if c = sep then [] :: splitCore sep cs
    else
      match splitCore sep cs with
      | [] => [[c]]
      | s :: ss => (c :: s) :: ss

/-- JS `Array.join(sep)` at the `List Char` level. -/
def joinCore (sep : Char) : List (List Char) → List Char
  | [] => []
  | [x] => x
  | x :: xs => x ++ sep :: joinCore sep xs

/-- JS `s.split(sep)` for a one-character separator. -/
def splitStr (sep : Char) (s : String) : List String :=
  (splitCore sep s.data).map (fun l => String.mk l)

/-- JS `parts.join('/')`. -/
def joinSegs (l : List String) : String :=
  String.mk (joinCore '/' (l.map String.data))

/-- JS `s.toLowerCase()` restricted to its per-character action
(the inputs this development evaluates it on are ASCII). -/
def lowerStr (s : String) : String := String.mk (s.data.map Char.toLower)

/-! ## Data model: `GitHubItem` and `TreeNode` (src/App.tsx) -/

/-- One record of the flat repository listing (`GitHubItem` in the app):
`{path, type, sha, url}`.  `sha` and `url` together are the opaque
content reference (`contentRef` in the specification). -/
structure GitHubItem where
  path : String
  type : String
  sha : String
  url : String
deriving DecidableEq, Repr

/-- A tree node (`TreeNode` in the app).  The JS `children` object is an
insertion-ordered list; the code always keys a child by its `name`. -/
inductive TreeNode where
  | node (name path type sha url : String) (children : List TreeNode)
deriving Repr

def TreeNode.name : TreeNode → String
  | .node n _ _ _ _ _ => n

def TreeNode.path : TreeNode → String
  | .node _ p _ _ _ _ => p

def TreeNode.type : TreeNode → String
  | .node _ _ ty _ _ _ => ty

def TreeNode.sha : TreeNode → String
  | .node _ _ _ s _ _ => s

def TreeNode.url : TreeNode → String
  | .node _ _ _ _ u _ => u

def TreeNode.children : TreeNode → List TreeNode
  | .node _ _ _ _ _ cs => cs

def TreeNode.setChildren : TreeNode → List TreeNode → TreeNode
  | .node n p ty s u _, cs => .node n p ty s u cs

/-! ## `buildTree` (src/App.tsx lines 18–39) -/

/-- One step of the inner `parts.forEach` walk of `buildTree`, scanning
the children list for the key `part`: if a child of that name exists it
is kept (`stop = true`, terminal segment) or has its children rebuilt
(`mod`); otherwise `newNode` is appended (JS adds new object keys at the
end). -/
def scanInsert (part : String) (newNode : TreeNode) (mod : TreeNode → TreeNode)
    (stop : Bool) : List TreeNode → List TreeNode
  | [] => [newNode]
  | c :: cs =>
    if c.name == part then (if stop then c :: cs else mod c :: cs)
    else c :: scanInsert part newNode mod stop cs

/-- The `parts.forEach` walk of `buildTree` from the segment `part`
(with remaining segments `rest`), at the children list of the node
whose segment sequence is `pre`.  A node that already exists never has
its own fields overwritten; a missing node is created with the item's
fields exactly when it is the terminal segment, and as a `"tree"` node
with empty `sha`/`url` otherwise. -/
def insertSeg (it : GitHubItem) (pre : List String) (part : String) :
    List String → List TreeNode → List TreeNode
  | [], cs =>
    scanInsert part (.node part (joinSegs (pre ++ [part])) it.type it.sha it.url [])
      id true cs
  | p2 :: r2, cs =>
    scanInsert part
      (.node part (joinSegs (pre ++ [part])) "tree" "" ""
        (insertSeg it (pre ++ [part]) p2 r2 []))
      (fun c => c.setChildren (insertSeg it (pre ++ [part]) p2 r2 c.children))
      false cs

/-- `items.forEach(item => ...)` body of `buildTree`: insert one item. -/
def insertItem (root : TreeNode) (it : GitHubItem) : TreeNode :=
  match splitStr '/' it.path with
  | [] => root
  | p :: rest => root.setChildren (insertSeg it [] p rest root.children)

/-- The root created at the top of `buildTree`. -/
def rootNode : TreeNode := .node "root" "" "tree" "" "" []

/-- `buildTree` (src/App.tsx line 18). -/
def buildTree (items : List GitHubItem) : TreeNode :=
  items.foldl insertItem rootNode

mutual
/-- All nodes of the subtree rooted at `t`, including `t`, in preorder. -/
def walkN (t : TreeNode) : List TreeNode :=
  match t with
  | .node n p ty s u cs => .node n p ty s u cs :: walkL cs

/-- All nodes of the subtrees rooted in `l`, in preorder. -/
def walkL : List TreeNode → List TreeNode
  | [] => []
  | c :: rest => walkN c ++ walkL rest
end

/-- Follow a sequence of child names from a children list
(the lookup structure `buildTree`'s walk creates). -/
def lookupSeg : List String → List TreeNode → Option TreeNode
  | [], _ => none
  | p :: q, cs =>
    match cs.find? (fun c => c.name == p) with
    | none => none
    | some c => if q = [] then some c else lookupSeg q c.children

mutual
/-- Well-formedness of a subtree whose root's segment sequence extends
`pre`: names are separator-free, each `path` field is the join of the
segment sequence, and sibling names are distinct. -/
def wfN (pre : List String) : TreeNode → Bool
  | .node n p _ _ _ cs =>
    !(n.data.contains '/') && (p == joinSegs (pre ++ [n])) && wfL (pre ++ [n]) cs

def wfL (pre : List String) : List TreeNode → Bool
  | [] => true
  | c :: rest =>
    wfN pre c && !((rest.map TreeNode.name).contains c.name) && wfL pre rest
end

mutual
/-- The name sequences (relative segment paths) of all nodes of a
subtree: the node itself and, for each descendant, its segment
sequence prefixed by the node's name. -/
def nameSeqsN : TreeNode → List (List String)
  | .node n _ _ _ _ cs => [n] :: (nameSeqsL cs).map (fun q => n :: q)

def nameSeqsL : List TreeNode → List (List String)
  | [] => []
  | c :: rest => nameSeqsN c ++ nameSeqsL rest
end

/-- The segment sequence of one listing record. -/
def itemParts (r : GitHubItem) : List String := splitStr '/' r.path

/-- The joined proper nonempty prefixes of a segment sequence. -/
def properPrefixList (l : List String) : List (List String) :=
  (List.range (l.length - 1)).map (fun k => l.take (k + 1))

/-- All proper-prefix paths of an input listing: for each record, the
joins of the nonempty strict prefixes of its segment sequence. -/
def strictPrefixPaths (items : List GitHubItem) : List String :=
  items.flatMap (fun r => (properPrefixList (itemParts r)).map joinSegs)

/-- Fields a node reachable under segment sequence `q` must carry after
building from `items`: its `path` is the join of `q`; its remaining
fields are those of the record whose segment sequence is `q`, or the
interior defaults `("tree", "", "")` when no record ends at `q`. -/
def Expected (items : List GitHubItem) (q : List String) (n : TreeNode) : Prop :=
  n.path = joinSegs q ∧
  ((∃ r ∈ items, itemParts r = q ∧ n.type = r.type ∧ n.sha = r.sha ∧ n.url = r.url) ∨
   ((∀ r ∈ items, itemParts r ≠ q) ∧ n.type = "tree" ∧ n.sha = "" ∧ n.url = ""))

/-- `q` is a nonempty prefix of some record's segment sequence. -/
def InClosure (items : List GitHubItem) (q : List String) : Prop :=
  q ≠ [] ∧ ∃ r ∈ items, q <+: itemParts r

/-- Invariant of the root's children list while `buildTree` folds over
the input: well-formed, and node lookup succeeds exactly on the
nonempty prefixes of processed records, with the expected fields. -/
def TreeInv (items : List GitHubItem) (cs : List TreeNode) : Prop :=
  wfL [] cs = true ∧
  (∀ q, (lookupSeg q cs).isSome ↔ InClosure items q) ∧
  (∀ q n, lookupSeg q cs = some n → Expected items q n)

/-! ## `buildAsciiIndex` (src/App.tsx lines 41–54) -/

mutual
/-- `buildAsciiIndex(node, prefix, isLast)`: a node named `"root"`
renders only its children from an empty running prefix; any other node
renders one connector line followed by its children. -/
def renderN (t : TreeNode) (pfx : String) (isLast : Bool) : String :=
  match t with
  | .node n _ _ _ _ cs =>
    if n == "root" then renderL cs ""
    else
      pfx ++ (if isLast then "└── " else "├── ") ++ n ++ "\n" ++
        renderL cs (pfx ++ (if isLast then "    " else "│   "))

/-- The `children.map((child, i) => build(child, pfx, i === len - 1))`
concatenation: every child but the last gets `isLast = false`. -/
def renderL (cs : List TreeNode) (pfx : String) : String :=
  match cs with
  | [] => ""
  | [c] => renderN c pfx true
  | c :: rest => renderN c pfx false ++ renderL rest pfx
end

/-- `buildAsciiIndex(treeData)` with JS default arguments. -/
def buildAsciiIndex (t : TreeNode) : String := renderN t "" true

/-- Number of rendered lines: occurrences of `'\n'`. -/
def countLines (s : String) : Nat := s.data.count '\n'

/-! ## Selection status (src/App.tsx lines 75–100) -/

/-- `SelectionStatus` in the app. -/
inductive SelectionStatus where
  | checked
  | unchecked
  | indeterminate
deriving DecidableEq, Repr

/-- Folding children statuses as `compute` does: all `checked` gives
`checked`, all `unchecked` gives `unchecked`, anything else is
`indeterminate`. -/
def combineStatuses (ss : List SelectionStatus) : SelectionStatus :=
  if ss.all (· == .checked) then .checked
  else if ss.all (· == .unchecked) then .unchecked
  else .indeterminate

mutual
/-- The status value `compute(node)` returns: a `blob` reads the
selection at its own path; a non-blob with no children is `unchecked`;
otherwise the children statuses are combined. -/
def statusN (sel : String → Bool) (t : TreeNode) : SelectionStatus :=
  match t with
  | .node _ p ty _ _ cs =>
    if ty == "blob" then (if sel p then .checked else .unchecked)
    else
      match cs with
      | [] => .unchecked
      | c :: rest => combineStatuses (statusL sel (c :: rest))

def statusL (sel : String → Bool) : List TreeNode → List SelectionStatus
  | [] => []
  | c :: rest => statusN sel c :: statusL sel rest
end

mutual
/-- The order in which `compute` writes `map[node.path]`: a blob is
written immediately; a non-blob is written after all its children
(post-order).  A blob's children are never visited. -/
def postN (t : TreeNode) : List TreeNode :=
  match t with
  | .node n p ty s u cs =>
    if ty == "blob" then [.node n p ty s u cs]
    else postL cs ++ [.node n p ty s u cs]

def postL : List TreeNode → List TreeNode
  | [] => []
  | c :: rest => postN c ++ postL rest
end

/-- The derived `selectionStatusMap` as its list of key assignments in
write order. -/
def statusMapOf (sel : String → Bool) (t : TreeNode) : List (String × SelectionStatus) :=
  (postN t).map (fun n => (n.path, statusN sel n))

/-- Reading a JS object built by a sequence of key assignments: the
last assignment to a key wins; a key never assigned reads `undefined`
(here `none`). -/
def mapLookupLast (m : List (String × SelectionStatus)) (p : String) :
    Option SelectionStatus :=
  (m.reverse.find? (fun e => e.1 == p)).map (fun e => e.2)

/-! ## `handleToggle` (src/App.tsx lines 138–160) -/

mutual
/-- `setRecursive`: write `v` at every blob path of the subtree, in
traversal order (self first, then children). -/
def setRecN (v : Bool) (t : TreeNode) (acc : String → Bool) : String → Bool :=
  match t with
  | .node _ p ty _ _ cs =>
    setRecL v cs (if ty == "blob" then Function.update acc p v else acc)

def setRecL (v : Bool) : List TreeNode → (String → Bool) → String → Bool
  | [], acc => acc
  | c :: rest, acc => setRecL v rest (setRecN v c acc)
end

mutual
/-- `findAndSet`'s search: the first node in preorder whose `path`
equals `p` (`children.some(...)` short-circuits). -/
def findByPathN (p : String) (t : TreeNode) : Option TreeNode :=
  match t with
  | .node n pp ty s u cs =>
    if pp == p then some (.node n pp ty s u cs) else findByPathL p cs

def findByPathL (p : String) : List TreeNode → Option TreeNode
  | [] => none
  | c :: rest =>
    match findByPathN p c with
    | some x => some x
    | none => findByPathL p rest
end

/-- `handleToggle(path, isFile)` acting on the selection map: a file
flips its own boolean; a directory reads its status from the derived
map and writes `currentStatus !== 'checked'` into every blob of its
subtree (found by path from the root). -/
def handleToggle (tree : TreeNode) (sel : String → Bool) (path : String)
    (isFile : Bool) : String → Bool :=
  if isFile then Function.update sel path (! sel path)
  else
    let targetVal : Bool := mapLookupLast (statusMapOf sel tree) path ≠ some .checked
    match findByPathN path tree with
    | none => sel
    | some n => setRecN targetVal n sel

mutual
/-- The blob paths of a subtree, in traversal order. -/
def blobPathsN (t : TreeNode) : List String :=
  match t with
  | .node _ p ty _ _ cs => (if ty == "blob" then [p] else []) ++ blobPathsL cs

def blobPathsL : List TreeNode → List String
  | [] => []
  | c :: rest => blobPathsN c ++ blobPathsL rest
end

mutual
/-- The `traverse` of `generateOutput`: collect `{path, url}` of every
blob whose selection boolean is set, in preorder. -/
def selFilesN (sel : String → Bool) (t : TreeNode) : List (String × String) :=
  match t with
  | .node _ p ty _ u cs =>
    (if ty == "blob" && sel p then [(p, u)] else []) ++ selFilesL sel cs

def selFilesL (sel : String → Bool) : List TreeNode → List (String × String)
  | [] => []
  | c :: rest => selFilesN sel c ++ selFilesL sel rest
end

mutual
/-- No non-blob node of the subtree has an empty children list. -/
def noEmptyDirN (t : TreeNode) : Bool :=
  match t with
  | .node _ _ ty _ _ cs => (ty == "blob" || !cs.isEmpty) && noEmptyDirL cs

def noEmptyDirL : List TreeNode → Bool
  | [] => true
  | c :: rest => noEmptyDirN c && noEmptyDirL rest
end

mutual
/-- Every blob node of the subtree is a leaf (has no children). -/
def blobsLeafN (t : TreeNode) : Bool :=
  match t with
  | .node _ _ ty _ _ cs => (ty != "blob" || cs.isEmpty) && blobsLeafL cs

def blobsLeafL : List TreeNode → Bool
  | [] => true
  | c :: rest => blobsLeafN c && blobsLeafL rest
end

/-! ## Content fetching (src/services/githubService.ts) -/

/-- `IMAGE_EXTENSIONS` (githubService.ts line 4). -/
def IMAGE_EXTENSIONS : List String := ["png", "jpg", "jpeg", "gif", "webp", "ico"]

/-- `CONCURRENCY_LIMIT` (githubService.ts line 5). -/
def CONCURRENCY_LIMIT : Nat := 10

/-- `file.path.split('.').pop()?.toLowerCase() || ''`: the lowercased
last `'.'`-separated segment (`pop` on the never-empty split result; a
lowercased empty string and the `|| ''` fallback coincide). -/
def extOf (path : String) : String :=
  lowerStr ((splitStr '.' path).getLastD "")

/-- `IMAGE_EXTENSIONS.has(ext)` for an item's path. -/
def imageExt (path : String) : Bool :=
  IMAGE_EXTENSIONS.contains (extOf path)

/-- Outcome of one `fetch(file.url)`: a rejected promise (network
error) or a settled response with its `ok` flag, body and blob MIME
type. -/
inductive FetchResult where
  | netError (msg : String)
  | response (ok : Bool) (body : String) (mimeType : String)
deriving DecidableEq, Repr

/-- Whether a fetch outcome is a rejected promise. -/
def isNetError : FetchResult → Bool
  | .netError _ => true
  | .response _ _ _ => false

/-- `FileContent` records produced by `fetchFileContents`: a text
record carries `text`; an image record carries `dataUrl` and
`mimeType`. -/
structure FileContent where
  path : String
  url : String
  type : String
  text : Option String
  dataUrl : Option String
  mimeType : Option String
deriving DecidableEq, Repr

/-- `FileReader.readAsDataURL` on the response blob, modelled as the
standard data-URL envelope around the (already string-modelled) body. -/
def dataUrlOf (mimeType body : String) : String :=
  "data:" ++ mimeType ++ ";base64," ++ body

/-- The per-item async closure inside `chunk.map(...)`: classify by
extension, fetch, drop the item on a non-ok status (`return null`),
otherwise build an image or text record.  A rejected fetch is an
`Except.error`, which `Promise.all` turns into a rejection of the whole
window. -/
def fetchOne (env : String → FetchResult) (file : String × String) :
    Except String (Option FileContent) :=
  let isImage := imageExt file.1
  match env file.2 with
  | .netError e => .error e
  | .response ok body mime =>
    if !ok then .ok none
    else if isImage then
      .ok (some ⟨file.1, file.2, "image", none, some (dataUrlOf mime body), some mime⟩)
    else
      .ok (some ⟨file.1, file.2, "text", some body, none, none⟩)

/-- The record an item contributes when its window settles: `none` for
a dropped (non-ok) item, its `FileContent` otherwise.  Meaningful when
the item's fetch does not reject. -/
def okRecord (env : String → FetchResult) (file : String × String) :
    Option FileContent :=
  match fetchOne env file with
  | .ok r => r
  | .error _ => none

/-- Fuel-driven chunking; the fuel is the list length, so the
definition is structural and computes.  Each chunk is `1 + k` long
(`k = limit - 1`), matching `files.slice(i, i + limit)`. -/
def chunksFuel (k : Nat) : Nat → List α → List (List α)
  | 0, _ => []
  | _ + 1, [] => []
  | f + 1, x :: xs => (x :: xs.take k) :: chunksFuel k f (xs.drop k)

/-- The window partition of the `for (let i = 0; i < files.length;
i += limit)` loop, for `limit ≥ 1`. -/
def chunks (limit : Nat) (l : List α) : List (List α) :=
  chunksFuel (limit - 1) l.length l

/-- `Promise.all(chunk.map(...))`: every item of the window settles; if
any rejects, the window rejects (determinized to the first error in
list order). -/
def fetchChunkItems (env : String → FetchResult) :
    List (String × String) → Except String (List (Option FileContent))
  | [] => .ok []
  | f :: fs =>
    match fetchOne env f with
    | .error e => .error e
    | .ok r =>
      match fetchChunkItems env fs with
      | .error e => .error e
      | .ok rs => .ok (r :: rs)

/-- The window loop of `fetchFileContents`: each settled window has its
nulls filtered out and its records appended to the accumulator; a
rejected window rejects the whole call. -/
def fetchChunks (env : String → FetchResult) :
    List (List (String × String)) → List FileContent →
      Except String (List FileContent)
  | [], acc => .ok acc
  | chunk :: rest, acc =>
    match fetchChunkItems env chunk with
    | .error e => .error e
    | .ok rs => fetchChunks env rest (acc ++ rs.filterMap id)

/-- `fetchFileContents(files, token)` (githubService.ts lines 58–92),
as a function of the fetch environment. -/
def fetchFileContents (env : String → FetchResult)
    (files : List (String × String)) : Except String (List FileContent) :=
  fetchChunks env (chunks CONCURRENCY_LIMIT files) []

/-! ## The event trace of the window loop (for the concurrency bound) -/

/-- Scheduling events of the window loop: issuing a request and its
settling (success or failure). -/
inductive FetchEvent where
  | issue (url : String)
  | settle (url : String)
deriving DecidableEq, Repr

/-- One window: all its requests are issued, then the `await
Promise.all` returns only when every one has settled. -/
def windowTrace (w : List (String × String)) : List FetchEvent :=
  w.map (fun f => .issue f.2) ++ w.map (fun f => .settle f.2)

/-- The full event trace: windows strictly in sequence. -/
def fetchTrace (limit : Nat) (files : List (String × String)) : List FetchEvent :=
  (chunks limit files).flatMap windowTrace

/-- One counting step: an issue raises the number of outstanding
requests, a settle lowers it. -/
def outstandingStep (k : Nat) : FetchEvent → Nat
  | .issue _ => k + 1
  | .settle _ => k - 1

/-- Number of issued-but-not-settled requests after a trace. -/
def outstandingAfter (tr : List FetchEvent) : Nat :=
  tr.foldl outstandingStep 0

/-! ## Bundle formatting (src/App.tsx lines 179–204) -/

/-- `'='.repeat(80)`. -/
def eqBar : String := String.mk (List.replicate 80 '=')

/-- The template-literal fallback ``[Binary/Image Data: ${file.mimeType}]``;
an absent `mimeType` prints as the string `"undefined"`. -/
def binaryPlaceholder (f : FileContent) : String :=
  "[Binary/Image Data: " ++ f.mimeType.getD "undefined" ++ "]"

/-- One appended section of `generateOutput`'s `contents.forEach`:
``file.text || placeholder`` falls back whenever `text` is absent *or*
empty (JS truthiness). -/
def fileSection (f : FileContent) : String :=
  "\n" ++ eqBar ++ "\nFILE: " ++ f.path ++ "\n" ++ eqBar ++ "\n\n" ++
    (match f.text with
     | some t => if t == "" then binaryPlaceholder f else t
     | none => binaryPlaceholder f) ++ "\n"

/-- The string `generateOutput` assembles from the repo label, the tree
and the fetched contents. -/
def formatOutput (owner repo : String) (tree : TreeNode)
    (contents : List FileContent) : String :=
  "REPOSITORY: " ++ owner ++ "/" ++ repo ++ "\nSTRUCTURE:\n" ++
    buildAsciiIndex tree ++ "\n\n" ++
    String.join (contents.map fileSection)

/-- `generateOutput` control flow (src/App.tsx lines 179–204): collect
the selected blobs; an empty selection throws `'No files selected'`
before any fetch; otherwise fetch and format. -/
def generateOutput (env : String → FetchResult) (owner repo : String)
    (tree : TreeNode) (sel : String → Bool) : Except String String :=
  let selectedFiles := selFilesN sel tree
  if selectedFiles.isEmpty then .error "No files selected"
  else
    match fetchFileContents env selectedFiles with
    | .error e => .error e
    | .ok contents => .ok (formatOutput owner repo tree contents)

/-- The bundle layout in the words of the specification (§4.5): one
header line identifying the repository, the structure text, then one
section per record in input order, each bounded by the `'='` marker and
a `FILE:` label; a binary record (no `text` field) renders a
placeholder describing its MIME type, while a text record inlines its
text.  This is the reference point the source formatting is compared
against. -/
def assembleSpec (owner repo : String) (tree : TreeNode)
    (records : List FileContent) : String :=
  let header := "REPOSITORY: " ++ owner ++ "/" ++ repo
  let oneSection : FileContent → String := fun r =>
    let body : String :=
      match r.text with
      | some t => t
      | none => "[Binary/Image Data: " ++ r.mimeType.getD "undefined" ++ "]"
    "\n" ++ eqBar ++ "\nFILE: " ++ r.path ++ "\n" ++ eqBar ++ "\n\n" ++ body ++ "\n"
  header ++ "\nSTRUCTURE:\n" ++ buildAsciiIndex tree ++ "\n\n" ++
    String.join (records.map oneSection)

/-! ## Concrete inputs used by counterexamples and witnesses -/

/-- The three-record example listing of specification §8. -/
def exampleItems : List GitHubItem :=
  [⟨"a/b.txt", "blob", "s1", "u1"⟩, ⟨"a/c/d.txt", "blob", "s2", "u2"⟩,
   ⟨"e.txt", "blob", "s3", "u3"⟩]

/-- A listing in which one record's path is a proper prefix of
another's (as a GitHub recursive listing produces for directories). -/
def overlapItems : List GitHubItem :=
  [⟨"a/b", "blob", "s1", "u1"⟩, ⟨"a", "blob", "s2", "u2"⟩]

/-- A listing with an explicit (empty) directory record next to a file. -/
def emptyDirItems : List GitHubItem :=
  [⟨"a", "tree", "sa", "ua"⟩, ⟨"b", "blob", "sb", "ub"⟩]

/-- A two-file directory, used to exercise `handleToggle`. -/
def toggleItems : List GitHubItem :=
  [⟨"a/b", "blob", "s1", "u1"⟩, ⟨"a/c", "blob", "s2", "u2"⟩]

/-- A fetch environment whose `"u1"` rejects and everything else
succeeds as text. -/
def envNetErr : String → FetchResult := fun u =>
  if u == "u1" then .netError "boom" else .response true "body" "text/plain"

/-- A fetch environment whose `"u1"` answers a non-ok status and
everything else succeeds as text. -/
def envBadStatus : String → FetchResult := fun u =>
  if u == "u1" then .response false "nope" "text/plain"
  else .response true "body" "text/plain"

/-- A text record with empty text (an empty file fetched successfully). -/
def emptyTextRecord : FileContent :=
  ⟨"f.txt", "u", "text", some "", none, none⟩

/-! # Theorems -/

/-! ## The split/join layer -/

theorem splitCore_ne_nil (sep : Char) (l : List Char) : splitCore sep l ≠ [] := by
  induction l with
  | nil => simp [splitCore]
  | cons c cs ih =>
    simp only [splitCore]
    split
    · simp
    · cases h : splitCore sep cs with
      | nil => simp
      | cons s ss => simp

theorem join_splitCore (sep : Char) (l : List Char) :
    joinCore sep (splitCore sep l) = l := by
  induction l with
  | nil => simp [splitCore, joinCore]
  | cons c cs ih =>
    simp only [splitCore]
    split
    · rename_i hc
      subst hc
      rw [show joinCore c ([] :: splitCore c cs)
            = [] ++ c :: joinCore c (splitCore c cs) by
          cases h : splitCore c cs with
          | nil => exact absurd h (splitCore_ne_nil c cs)
          | cons s ss => rfl]
      simp [ih]
    · cases h : splitCore sep cs with
      | nil => exact absurd h (splitCore_ne_nil sep cs)
      | cons s ss =>
        rw [h] at ih
        cases ss with
        | nil => simpa [joinCore] using congrArg (c :: ·) ih
        | cons s2 ss2 => simpa [joinCore] using congrArg (c :: ·) ih

theorem sep_not_mem_splitCore (sep : Char) (l : List Char) :
    ∀ x ∈ splitCore sep l, sep ∉ x := by
  induction l with
  | nil => simp [splitCore]
  | cons c cs ih =>
    simp only [splitCore]
    split
    · intro x hx
      rcases List.mem_cons.1 hx with h | h
      · simp [h]
      · exact ih x h
    · rename_i hc
      cases h : splitCore sep cs with
      | nil => exact absurd h (splitCore_ne_nil sep cs)
      | cons s ss =>
        intro x hx
        rcases List.mem_cons.1 hx with h' | h'
        · subst h'
          intro hmem
          rcases List.mem_cons.1 hmem with h'' | h''
          · exact hc h''.symm
          · exact ih s (h ▸ List.mem_cons_self s ss) h''
        · exact ih x (h ▸ List.mem_cons_of_mem s h')

theorem splitCore_of_not_mem (sep : Char) (l : List Char) (h : sep ∉ l) :
    splitCore sep l = [l] := by
  induction l with
  | nil => simp [splitCore]
  | cons c cs ih =>
    have hc : ¬ c = sep := fun hc => h (hc ▸ List.mem_cons_self c cs)
    have hcs : sep ∉ cs := fun hm => h (List.mem_cons_of_mem c hm)
    simp only [splitCore, if_neg hc, ih hcs]

theorem splitCore_length_ge_two (sep : Char) (l m : List Char) :
    2 ≤ (splitCore sep (l ++ sep :: m)).length := by
  induction l with
  | nil =>
    simp only [List.nil_append, splitCore, if_pos rfl, List.length_cons]
    have := splitCore_ne_nil sep m
    cases h : splitCore sep m with
    | nil => exact absurd h this
    | cons s ss => simp [h]
  | cons c cs ih =>
    simp only [List.cons_append, splitCore]
    split
    · have := splitCore_ne_nil sep (cs ++ sep :: m)
      cases h : splitCore sep (cs ++ sep :: m) with
      | nil => exact absurd h this
      | cons s ss => simp [h]
    · cases h : splitCore sep (cs ++ sep :: m) with
      | nil => exact absurd h (splitCore_ne_nil sep _)
      | cons s ss =>
        rw [h] at ih
        simpa using ih

theorem getLast_splitCore_append_sep (sep : Char) (l : List Char) :
    (splitCore sep (l ++ [sep])).getLast? = some [] := by
  induction l with
  | nil => simp [splitCore]
  | cons c cs ih =>
    simp only [List.cons_append, splitCore]
    split
    · have := splitCore_ne_nil sep (cs ++ [sep])
      cases h : splitCore sep (cs ++ [sep]) with
      | nil => exact absurd h this
      | cons s ss =>
        rw [h] at ih
        rw [List.getLast?_cons_cons]
        exact ih
    · have hlen := splitCore_length_ge_two sep cs []
      simp only [List.append_nil] at hlen
      cases h : splitCore sep (cs ++ [sep]) with
      | nil => exact absurd h (splitCore_ne_nil sep _)
      | cons s ss =>
        rw [h] at ih hlen
        cases ss with
        | nil => simp at hlen
        | cons s2 ss2 => simpa [List.getLast?_cons] using ih

/-- `joinCore` separates heads: equal joins of separator-free segment
lists have equal heads and equal joined tails. -/
theorem joinCore_head_cancel (sep : Char) :
    ∀ (x y r r' : List Char), sep ∉ x → sep ∉ y →
      x ++ sep :: r = y ++ sep :: r' → x = y ∧ r = r' := by
  intro x
  induction x with
  | nil =>
    intro y r r' _ hy h
    cases y with
    | nil => simpa using h
    | cons d ds =>
      simp only [List.nil_append, List.cons_append, List.cons.injEq] at h
      exact absurd (h.1 ▸ List.mem_cons_self d ds) hy
  | cons c cs ih =>
    intro y r r' hx hy h
    cases y with
    | nil =>
      simp only [List.cons_append, List.nil_append, List.cons.injEq] at h
      exact absurd (h.1.symm ▸ List.mem_cons_self c cs) hx
    | cons d ds =>
      simp only [List.cons_append, List.cons.injEq] at h
      obtain ⟨rfl, h2⟩ := h
      have hx' : sep ∉ cs := fun hm => hx (List.mem_cons_of_mem _ hm)
      have hy' : sep ∉ ds := fun hm => hy (List.mem_cons_of_mem _ hm)
      obtain ⟨he, hr⟩ := ih ds r r' hx' hy' h2
      exact ⟨by rw [he], hr⟩

theorem joinCore_injOn (sep : Char) :
    ∀ (q1 q2 : List (List Char)), q1 ≠ [] → q2 ≠ [] →
      (∀ x ∈ q1, sep ∉ x) → (∀ x ∈ q2, sep ∉ x) →
      joinCore sep q1 = joinCore sep q2 → q1 = q2 := by
  intro q1
  induction q1 with
  | nil => intro q2 h; exact absurd rfl h
  | cons x xs ih =>
    intro q2 _ hq2 hfree1 hfree2 h
    cases q2 with
    | nil => exact absurd rfl hq2
    | cons y ys =>
      cases xs with
      | nil =>
        cases ys with
        | nil => simpa [joinCore] using h
        | cons y2 ys2 =>
          exfalso
          simp only [joinCore] at h
          have : sep ∈ y ++ sep :: joinCore sep (y2 :: ys2) := by simp
          rw [← h] at this
          exact hfree1 x (List.mem_cons_self x []) this
      | cons x2 xs2 =>
        cases ys with
        | nil =>
          exfalso
          simp only [joinCore] at h
          have : sep ∈ x ++ sep :: joinCore sep (x2 :: xs2) := by simp
          rw [h] at this
          exact hfree2 y (List.mem_cons_self y []) this
        | cons y2 ys2 =>
          simp only [joinCore] at h
          obtain ⟨hxy, htail⟩ := joinCore_head_cancel sep x y _ _
            (hfree1 x (List.mem_cons_self x _)) (hfree2 y (List.mem_cons_self y _)) h
          have := ih (y2 :: ys2) (by simp) (by simp)
            (fun z hz => hfree1 z (List.mem_cons_of_mem x hz))
            (fun z hz => hfree2 z (List.mem_cons_of_mem y hz)) htail
          rw [hxy, this]

theorem joinSegs_split (s : String) : joinSegs (splitStr '/' s) = s := by
  show String.mk (joinCore '/' (((splitCore '/' s.data).map String.mk).map String.data)) = s
  rw [List.map_map]
  have : (String.data ∘ String.mk) = id := by funext l; rfl
  rw [this, List.map_id, join_splitCore]

theorem splitStr_ne_nil (sep : Char) (s : String) : splitStr sep s ≠ [] := by
  simp only [splitStr, ne_eq, List.map_eq_nil_iff]
  exact splitCore_ne_nil sep s.data

/-- `joinSegs` is injective on nonempty lists of `'/'`-free segments. -/
theorem joinSegs_injOn (q1 q2 : List String) (h1 : q1 ≠ []) (h2 : q2 ≠ [])
    (hf1 : ∀ x ∈ q1, '/' ∉ x.data) (hf2 : ∀ x ∈ q2, '/' ∉ x.data)
    (h : joinSegs q1 = joinSegs q2) : q1 = q2 := by
  have hdata : joinCore '/' (q1.map String.data) = joinCore '/' (q2.map String.data) :=
    congrArg String.data h
  have := joinCore_injOn '/' (q1.map String.data) (q2.map String.data)
    (by simpa using h1) (by simpa using h2)
    (by intro x hx; obtain ⟨y, hy, rfl⟩ := List.mem_map.1 hx; exact hf1 y hy)
    (by intro x hx; obtain ⟨y, hy, rfl⟩ := List.mem_map.1 hx; exact hf2 y hy)
    hdata
  have hinj : Function.Injective String.data := by
    intro a b hab
    exact congrArg String.mk hab
  exact List.map_injective_iff.2 hinj this

theorem mem_splitStr_sep_free (sep : Char) (s : String) :
    ∀ x ∈ splitStr sep s, sep ∉ x.data := by
  intro x hx
  obtain ⟨l, hl, rfl⟩ := List.mem_map.1 hx
  exact sep_not_mem_splitCore sep s.data l hl

/-! ## Basic tree facts -/

/-- Simultaneous induction over a node and a list of nodes. -/
theorem TreeNode.nestedInd (P : TreeNode → Prop) (Q : List TreeNode → Prop)
    (hnode : ∀ n p ty s u cs, Q cs → P (.node n p ty s u cs))
    (hnil : Q []) (hcons : ∀ c rest, P c → Q rest → Q (c :: rest)) :
    (∀ t, P t) ∧ (∀ l, Q l) := by
  have ht : ∀ t, P t := fun t => @TreeNode.rec P Q hnode hnil hcons t
  refine ⟨ht, ?_⟩
  intro l
  induction l with
  | nil => exact hnil
  | cons c rest ih => exact hcons c rest (ht c) ih

theorem TreeNode.name_node (n p ty s u : String) (cs : List TreeNode) :
    (TreeNode.node n p ty s u cs).name = n := rfl

theorem TreeNode.path_node (n p ty s u : String) (cs : List TreeNode) :
    (TreeNode.node n p ty s u cs).path = p := rfl

theorem TreeNode.children_node (n p ty s u : String) (cs : List TreeNode) :
    (TreeNode.node n p ty s u cs).children = cs := rfl

theorem walkN_node (n p ty s u : String) (cs : List TreeNode) :
    walkN (.node n p ty s u cs) = .node n p ty s u cs :: walkL cs := by
  rw [walkN]

theorem walkL_nil : walkL [] = [] := by rw [walkL]

theorem walkL_cons (c : TreeNode) (rest : List TreeNode) :
    walkL (c :: rest) = walkN c ++ walkL rest := by rw [walkL]

/-! ## Claim C9: degenerate `buildTree` inputs -/

/-- Claim C9 (corrected), counterexample to the claim as stated: a
record whose path is the empty string does *not* yield a root with
empty children — `''.split('/')` is `['']`, so `buildTree` creates one
child node whose name and path are both empty. -/
theorem C9_counterexample :
    ((buildTree [⟨"", "blob", "s", "u"⟩]).children).map TreeNode.name = [""] ∧
    ((buildTree [⟨"", "blob", "s", "u"⟩]).children).length ≠ 0 := by
  decide

/-- Claim C9 (amended): an empty record list yields a root with empty
children; a single record with an empty path yields a root with exactly
one child, named and pathed by the empty string, carrying the record's
`type`/`sha`/`url`. -/
theorem C9_buildTree_degenerate :
    (buildTree []).children = [] ∧
    ∀ it : GitHubItem, it.path = "" →
      (buildTree [it]).children = [TreeNode.node "" "" it.type it.sha it.url []] := by
  refine ⟨rfl, ?_⟩
  intro it h
  cases it with
  | mk p ty s u =>
    have hp : p = "" := h
    subst hp
    rfl

/-- Witness for C9: the amended statement evaluated on a concrete
empty-path record. -/
theorem C9_witness :
    (buildTree [({ path := "", type := "tree", sha := "s9", url := "u9" } : GitHubItem)]).children =
      [TreeNode.node "" "" "tree" "s9" "u9" []] :=
  C9_buildTree_degenerate.2 ⟨"", "tree", "s9", "u9"⟩ rfl

/-! ## Claim C10: extension classification in `fetchFileContents` -/

/-- Claim C10: the binary-versus-text classification lowercases the
substring after the last `'.'` and tests membership in
`IMAGE_EXTENSIONS`; a path with no `'.'` uses the whole path (so a file
whose entire name is `png` is routed to binary handling); a path ending
in `'.'` yields the empty extension and is treated as text. -/
theorem C10_extension_classification :
    (∀ path : String, imageExt path =
        IMAGE_EXTENSIONS.contains (lowerStr ((splitStr '.' path).getLastD ""))) ∧
    (∀ path : String, '.' ∉ path.data → extOf path = lowerStr path) ∧
    imageExt "png" = true ∧
    (∀ path : String, extOf (path ++ ".") = "" ∧ imageExt (path ++ ".") = false) := by
  have hdot : ∀ path : String, extOf (path ++ ".") = "" := by
    intro path
    have hdata : (path ++ ".").data = path.data ++ ['.'] := by
      rw [String.data_append]
    have hlast : (splitCore '.' ((path ++ ".").data)).getLast? = some [] := by
      rw [hdata]; exact getLast_splitCore_append_sep '.' path.data
    have : (splitStr '.' (path ++ ".")).getLastD "" = "" := by
      rw [splitStr, List.getLastD_eq_getLast?, List.getLast?_map, hlast]
      rfl
    rw [extOf, this]
    rfl
  refine ⟨fun path => rfl, ?_, by decide, fun path => ⟨hdot path, ?_⟩⟩
  · intro path h
    rw [extOf, splitStr, splitCore_of_not_mem '.' path.data h]
    rfl
  · rw [imageExt, hdot path]
    decide

/-- Witness for C10: the hypotheses of the dot-free clause discharged
at the concrete path `"png"`, together with the concrete clauses. -/
theorem C10_witness :
    ('.' ∉ "png".data) ∧ extOf "png" = lowerStr "png" ∧
      extOf ("a" ++ ".") = "" ∧ imageExt ("a" ++ ".") = false :=
  ⟨by decide, C10_extension_classification.2.1 "png" (by decide),
    (C10_extension_classification.2.2.2 "a").1, (C10_extension_classification.2.2.2 "a").2⟩

/-! ## Claim C4: the rendered structure text -/

theorem countLines_append (a b : String) :
    countLines (a ++ b) = countLines a + countLines b := by
  rw [countLines, countLines, countLines, String.data_append, List.count_append]

theorem countLines_of_no_newline (s : String) (h : '\n' ∉ s.data) :
    countLines s = 0 := by
  rw [countLines]
  exact List.count_eq_zero.2 h

theorem renderL_nil (pfx : String) : renderL [] pfx = "" := by
  simp only [renderL]

theorem renderL_single (c : TreeNode) (pfx : String) :
    renderL [c] pfx = renderN c pfx true := by
  simp only [renderL]

theorem renderL_cons2 (c c2 : TreeNode) (rest : List TreeNode) (pfx : String) :
    renderL (c :: c2 :: rest) pfx = renderN c pfx false ++ renderL (c2 :: rest) pfx := by
  simp only [renderL]

theorem no_newline_append (a b : String) (ha : '\n' ∉ a.data) (hb : '\n' ∉ b.data) :
    '\n' ∉ (a ++ b).data := by
  rw [String.data_append]
  simp [ha, hb]

/-- One rendered line per walked node, provided no walked node is named
`"root"` and neither names nor the running prefix contain a newline. -/
theorem renderLines_aux :
    (∀ t : TreeNode, ∀ pfx : String, ∀ isLast : Bool, '\n' ∉ pfx.data →
        (∀ n ∈ walkN t, '\n' ∉ n.name.data ∧ n.name ≠ "root") →
        countLines (renderN t pfx isLast) = (walkN t).length) ∧
    (∀ cs : List TreeNode, ∀ pfx : String, '\n' ∉ pfx.data →
        (∀ n ∈ walkL cs, '\n' ∉ n.name.data ∧ n.name ≠ "root") →
        countLines (renderL cs pfx) = (walkL cs).length) := by
  refine TreeNode.nestedInd
    (fun t => ∀ pfx isLast, '\n' ∉ pfx.data →
        (∀ n ∈ walkN t, '\n' ∉ n.name.data ∧ n.name ≠ "root") →
        countLines (renderN t pfx isLast) = (walkN t).length)
    (fun cs => ∀ pfx, '\n' ∉ pfx.data →
        (∀ n ∈ walkL cs, '\n' ∉ n.name.data ∧ n.name ≠ "root") →
        countLines (renderL cs pfx) = (walkL cs).length)
    ?_ ?_ ?_
  · intro n p ty s u cs ih pfx isLast hpfx hnames
    have hself := hnames (.node n p ty s u cs)
      (by rw [walkN_node]; exact List.mem_cons_self _ _)
    have hname : '\n' ∉ n.data := hself.1
    have hnroot : ¬((n == "root") = true) := by
      simpa using hself.2
    have hrest : ∀ m ∈ walkL cs, '\n' ∉ m.name.data ∧ m.name ≠ "root" := by
      intro m hm
      exact hnames m (by rw [walkN_node]; exact List.mem_cons_of_mem _ hm)
    have hglyph1 : '\n' ∉ (if isLast then "└── " else "├── ").data := by
      cases isLast <;> decide
    have hglyph2 : '\n' ∉ (if isLast then "    " else "│   ").data := by
      cases isLast <;> decide
    have hchild : '\n' ∉ (pfx ++ (if isLast then "    " else "│   ")).data :=
      no_newline_append _ _ hpfx hglyph2
    simp only [renderN, if_neg hnroot]
    rw [countLines_append, countLines_append, countLines_append, countLines_append,
      countLines_of_no_newline pfx hpfx, countLines_of_no_newline _ hglyph1,
      countLines_of_no_newline n hname, ih _ hchild hrest, walkN_node]
    simp [countLines, Nat.add_comm]
  · intro pfx _ _
    rw [renderL_nil, walkL_nil]
    rfl
  · intro c rest ihc ihrest pfx hpfx hnames
    have hc : ∀ m ∈ walkN c, '\n' ∉ m.name.data ∧ m.name ≠ "root" := by
      intro m hm
      exact hnames m (by rw [walkL_cons]; exact List.mem_append_left _ hm)
    have hr : ∀ m ∈ walkL rest, '\n' ∉ m.name.data ∧ m.name ≠ "root" := by
      intro m hm
      exact hnames m (by rw [walkL_cons]; exact List.mem_append_right _ hm)
    cases rest with
    | nil =>
      rw [renderL_single, walkL_cons, walkL_nil, List.append_nil]
      exact ihc pfx true hpfx hc
    | cons c2 rest2 =>
      rw [renderL_cons2, countLines_append, walkL_cons, List.length_append,
        ihc pfx false hpfx hc, ihrest pfx hpfx hr]

/-- Claim C4 (amended): the structure text is a deterministic function
of the tree that renders exactly one connector line per walked node —
the root contributes no line — but children appear in child-map
insertion order (the order first created by `buildTree`), not sorted. -/
theorem C4_render_lines (t : TreeNode) (hroot : t.name = "root")
    (hnames : ∀ n ∈ walkL t.children, '\n' ∉ n.name.data ∧ n.name ≠ "root") :
    countLines (buildAsciiIndex t) = (walkL t.children).length := by
  cases t with
  | node n p ty s u cs =>
    have hn : (n == "root") = true := by
      have : n = "root" := hroot
      simp [this]
    rw [buildAsciiIndex]
    simp only [renderN, if_pos hn]
    exact renderLines_aux.2 cs "" (by decide) hnames

/-- Claim C4, counterexample to the claim as stated: `buildAsciiIndex`
renders children in insertion order, so the structure text depends on
the order the entries were supplied, and entries of equal kind are not
sorted lexicographically (`b.txt` precedes `a.txt`). -/
theorem C4_counterexample :
    buildAsciiIndex (buildTree [⟨"a.txt", "blob", "s1", "u1"⟩, ⟨"b.txt", "blob", "s2", "u2"⟩]) ≠
      buildAsciiIndex (buildTree [⟨"b.txt", "blob", "s2", "u2"⟩, ⟨"a.txt", "blob", "s1", "u1"⟩]) ∧
    buildAsciiIndex (buildTree [⟨"b.txt", "blob", "s2", "u2"⟩, ⟨"a.txt", "blob", "s1", "u1"⟩]) =
      "├── b.txt\n└── a.txt\n" := by
  constructor
  · decide
  · decide

/-- Witness for C4: the amended statement evaluated on the §8 example
listing (five nodes, five lines, no line for the root). -/
theorem C4_witness :
    countLines (buildAsciiIndex (buildTree exampleItems)) =
      (walkL (buildTree exampleItems).children).length :=
  C4_render_lines (buildTree exampleItems) rfl (by decide)

/-! ## Claim C8: empty selection fails fast -/

theorem selFiles_empty_aux :
    (∀ t : TreeNode, ∀ sel : String → Bool,
        (∀ p ∈ blobPathsN t, sel p = false) → selFilesN sel t = []) ∧
    (∀ cs : List TreeNode, ∀ sel : String → Bool,
        (∀ p ∈ blobPathsL cs, sel p = false) → selFilesL sel cs = []) := by
  refine TreeNode.nestedInd
    (fun t => ∀ sel : String → Bool,
        (∀ p ∈ blobPathsN t, sel p = false) → selFilesN sel t = [])
    (fun cs => ∀ sel : String → Bool,
        (∀ p ∈ blobPathsL cs, sel p = false) → selFilesL sel cs = [])
    ?_ ?_ ?_
  · intro n p ty s u cs ih sel h
    have hcs : selFilesL sel cs = [] := by
      refine ih sel ?_
      intro q hq
      refine h q ?_
      simp only [blobPathsN]
      exact List.mem_append_right _ hq
    simp only [selFilesN, hcs, List.append_nil]
    cases hty : (ty == "blob") with
    | false => simp
    | true =>
      have hp : sel p = false := by
        refine h p ?_
        simp [blobPathsN, hty]
      simp [hp]
  · intro sel _
    simp only [selFilesL]
  · intro c rest ihc ihrest sel h
    have h1 : selFilesN sel c = [] := by
      refine ihc sel ?_
      intro q hq
      exact h q (by simp only [blobPathsL]; exact List.mem_append_left _ hq)
    have h2 : selFilesL sel rest = [] := by
      refine ihrest sel ?_
      intro q hq
      exact h q (by simp only [blobPathsL]; exact List.mem_append_right _ hq)
    simp [selFilesL, h1, h2]

/-- Claim C8: if no blob of the tree is selected when generation runs,
`generateOutput` fails with the explicit `'No files selected'` error,
its result does not depend on the fetch environment (no fetch is
attempted), and no bundle output is produced. -/
theorem C8_empty_selection (env env' : String → FetchResult) (owner repo : String)
    (tree : TreeNode) (sel : String → Bool)
    (h : ∀ p ∈ blobPathsN tree, sel p = false) :
    generateOutput env owner repo tree sel = .error "No files selected" ∧
    generateOutput env owner repo tree sel = generateOutput env' owner repo tree sel ∧
    ∀ s, generateOutput env owner repo tree sel ≠ .ok s := by
  have hsel : selFilesN sel tree = [] := selFiles_empty_aux.1 tree sel h
  refine ⟨?_, ?_, ?_⟩ <;> simp [generateOutput, hsel]

/-- Witness for C8: an unselected one-file tree fails fast under either
environment. -/
theorem C8_witness :
    generateOutput envNetErr "o" "r" (buildTree [⟨"x.txt", "blob", "s", "u2"⟩])
        (fun _ => false) = .error "No files selected" :=
  (C8_empty_selection envNetErr envBadStatus "o" "r"
    (buildTree [⟨"x.txt", "blob", "s", "u2"⟩]) (fun _ => false) (by decide)).1

/-! ## Claim C7: bundle assembly -/

/-- Claim C7 (amended): when every text record has nonempty text, the
assembled bundle is exactly the specification's layout — header line,
structure text, then per-record sections in input order with the `'='`
boundary and `FILE:` label, binary records rendering the MIME
placeholder and text records inlining their text. -/
theorem C7_assemble (owner repo : String) (tree : TreeNode)
    (records : List FileContent) (h : ∀ r ∈ records, r.text ≠ some "") :
    formatOutput owner repo tree records = assembleSpec owner repo tree records := by
  have hsec : ∀ r ∈ records, fileSection r =
      "\n" ++ eqBar ++ "\nFILE: " ++ r.path ++ "\n" ++ eqBar ++ "\n\n" ++
        (match r.text with
         | some t => t
         | none => "[Binary/Image Data: " ++ r.mimeType.getD "undefined" ++ "]") ++ "\n" := by
    intro r hr
    cases htext : r.text with
    | none => simp [fileSection, binaryPlaceholder, htext]
    | some t =>
      have ht : (t == "") = false := by
        have : t ≠ "" := fun he => h r hr (by rw [htext, he])
        simpa using this
      simp [fileSection, htext, ht]
  simp only [formatOutput, assembleSpec]
  congr 1
  exact congrArg String.join (List.map_congr_left hsec)

/-- Claim C7, counterexample to the claim as stated: a *text* record
whose text is empty does not inline its text — JS `||` treats the empty
string as falsy, so the binary placeholder (with MIME `undefined`) is
rendered instead. -/
theorem C7_counterexample :
    emptyTextRecord.type = "text" ∧ emptyTextRecord.text = some "" ∧
    formatOutput "o" "r" rootNode [emptyTextRecord] ≠
      assembleSpec "o" "r" rootNode [emptyTextRecord] := by
  refine ⟨rfl, rfl, ?_⟩
  set_option maxRecDepth 4000 in decide

/-- Witness for C7: the amended statement on a text record with
nonempty text and a binary record. -/
theorem C7_witness :
    formatOutput "o" "r" rootNode
        [⟨"a.txt", "u", "text", some "hello", none, none⟩,
         ⟨"i.png", "u2", "image", none, some "d", some "image/png"⟩] =
      assembleSpec "o" "r" rootNode
        [⟨"a.txt", "u", "text", some "hello", none, none⟩,
         ⟨"i.png", "u2", "image", none, some "d", some "image/png"⟩] :=
  C7_assemble "o" "r" rootNode _ (by decide)

/-! ## Claim C6: the window discipline of `fetchFileContents` -/

theorem chunksFuel_eq (k : Nat) {α : Type} :
    ∀ (f1 f2 : Nat) (l : List α), l.length ≤ f1 → l.length ≤ f2 →
      chunksFuel k f1 l = chunksFuel k f2 l := by
  intro f1
  induction f1 with
  | zero =>
    intro f2 l h1 _
    have : l = [] := List.eq_nil_of_length_eq_zero (Nat.le_zero.1 h1)
    subst this
    cases f2 <;> simp [chunksFuel]
  | succ f ih =>
    intro f2 l h1 h2
    cases l with
    | nil => cases f2 <;> simp [chunksFuel]
    | cons x xs =>
      cases f2 with
      | zero => simp at h2
      | succ f2' =>
        simp only [chunksFuel, List.cons.injEq, true_and]
        have hx1 : xs.length ≤ f := by simpa using h1
        have hx2 : xs.length ≤ f2' := by simpa using h2
        have hd : (xs.drop k).length ≤ xs.length := by
          rw [List.length_drop]; omega
        exact ih f2' (xs.drop k) (le_trans hd hx1) (le_trans hd hx2)

theorem chunks_nil (limit : Nat) {α : Type} : chunks limit ([] : List α) = [] := rfl

theorem chunks_cons (limit : Nat) {α : Type} (x : α) (xs : List α) :
    chunks limit (x :: xs) =
      (x :: xs.take (limit - 1)) :: chunks limit (xs.drop (limit - 1)) := by
  rw [chunks, chunks]
  simp only [List.length_cons, chunksFuel, List.cons.injEq, true_and]
  have hd : (xs.drop (limit - 1)).length ≤ xs.length := by
    rw [List.length_drop]; omega
  exact chunksFuel_eq (limit - 1) xs.length (xs.drop (limit - 1)).length
    (xs.drop (limit - 1)) hd (le_refl _)

theorem chunksFuel_flatten (k : Nat) {α : Type} :
    ∀ (f : Nat) (l : List α), l.length ≤ f → (chunksFuel k f l).flatten = l := by
  intro f
  induction f with
  | zero =>
    intro l h
    have : l = [] := List.eq_nil_of_length_eq_zero (Nat.le_zero.1 h)
    subst this
    rfl
  | succ f ih =>
    intro l h
    cases l with
    | nil => rfl
    | cons x xs =>
      have hx : xs.length ≤ f := by simpa using h
      have hd : (xs.drop k).length ≤ f := by
        rw [List.length_drop]; omega
      simp only [chunksFuel, List.flatten_cons, ih (xs.drop k) hd, List.cons_append,
        List.take_append_drop]

theorem chunks_flatten (limit : Nat) {α : Type} (l : List α) :
    (chunks limit l).flatten = l :=
  chunksFuel_flatten (limit - 1) l.length l (le_refl _)

theorem chunksFuel_mem_length (k : Nat) {α : Type} :
    ∀ (f : Nat) (l : List α) (w : List α), w ∈ chunksFuel k f l → w.length ≤ k + 1 := by
  intro f
  induction f with
  | zero => intro l w hw; simp [chunksFuel] at hw
  | succ f ih =>
    intro l w hw
    cases l with
    | nil => simp [chunksFuel] at hw
    | cons x xs =>
      simp only [chunksFuel, List.mem_cons] at hw
      rcases hw with hw | hw
      · subst hw
        simp only [List.length_cons, List.length_take]
        omega
      · exact ih (xs.drop k) w hw

theorem chunks_mem_length (limit : Nat) {α : Type} (hlimit : 1 ≤ limit)
    (l : List α) : ∀ w ∈ chunks limit l, w.length ≤ limit := by
  intro w hw
  have := chunksFuel_mem_length (limit - 1) l.length l w hw
  omega

theorem foldl_issue_map (ws : List (String × String)) :
    ∀ k : Nat, List.foldl outstandingStep k
      (ws.map (fun f => FetchEvent.issue f.2)) = k + ws.length := by
  induction ws with
  | nil => intro k; simp
  | cons w ws' ih =>
    intro k
    simp only [List.map_cons, List.foldl_cons, outstandingStep, ih, List.length_cons]
    omega

theorem foldl_settle_map (ws : List (String × String)) :
    ∀ k : Nat, List.foldl outstandingStep k
      (ws.map (fun f => FetchEvent.settle f.2)) = k - ws.length := by
  induction ws with
  | nil => intro k; simp
  | cons w ws' ih =>
    intro k
    simp only [List.map_cons, List.foldl_cons, outstandingStep, ih, List.length_cons]
    omega

theorem foldl_windowTrace (w : List (String × String)) :
    List.foldl outstandingStep 0 (windowTrace w) = 0 := by
  rw [windowTrace, List.foldl_append, foldl_issue_map, foldl_settle_map]
  omega

theorem windowTrace_take_bound (w : List (String × String)) (j : Nat) :
    List.foldl outstandingStep 0 ((windowTrace w).take j) ≤ w.length := by
  rw [windowTrace, List.take_append_eq_append_take, List.foldl_append,
    ← List.map_take, ← List.map_take, foldl_issue_map, foldl_settle_map]
  have h1 : (w.take j).length ≤ w.length := by
    rw [List.length_take]; omega
  omega

theorem flatMap_windows_bound (limit : Nat) :
    ∀ (ws : List (List (String × String))), (∀ w ∈ ws, w.length ≤ limit) →
      ∀ j : Nat, List.foldl outstandingStep 0 ((ws.flatMap windowTrace).take j) ≤ limit := by
  intro ws
  induction ws with
  | nil =>
    intro _ j
    simp
  | cons w ws' ih =>
    intro h j
    rw [List.flatMap_cons, List.take_append_eq_append_take, List.foldl_append]
    by_cases hj : j ≤ (windowTrace w).length
    · rw [Nat.sub_eq_zero_of_le hj, List.take_zero, List.foldl_nil]
      exact le_trans (windowTrace_take_bound w j) (h w (List.mem_cons_self _ _))
    · push_neg at hj
      rw [List.take_of_length_le (le_of_lt hj), foldl_windowTrace]
      exact ih (fun w' hw' => h w' (List.mem_cons_of_mem _ hw')) _

/-- Claim C6: for every `concurrencyLimit ≥ 1` and every batch, the
window partition used by `fetchFileContents` covers the input exactly,
each window holds at most `concurrencyLimit` items, and along the event
trace (all of a window issued, all settled, windows strictly in
sequence) the number of outstanding requests never exceeds
`concurrencyLimit`. -/
theorem C6_concurrency (limit : Nat) (hlimit : 1 ≤ limit)
    (files : List (String × String)) :
    (chunks limit files).flatten = files ∧
    (∀ w ∈ chunks limit files, w.length ≤ limit) ∧
    (∀ j : Nat, outstandingAfter ((fetchTrace limit files).take j) ≤ limit) := by
  refine ⟨chunks_flatten limit files, chunks_mem_length limit hlimit files, ?_⟩
  intro j
  exact flatMap_windows_bound limit (chunks limit files)
    (chunks_mem_length limit hlimit files) j

/-- Witness for C6: the bound discharged at limit `2` on a four-item
batch. -/
theorem C6_witness :
    (1 ≤ 2) ∧
    ((chunks 2 [("a", "ua"), ("b", "ub"), ("c", "uc"), ("d", "ud")]).flatten =
        [("a", "ua"), ("b", "ub"), ("c", "uc"), ("d", "ud")] ∧
      (∀ w ∈ chunks 2 [("a", "ua"), ("b", "ub"), ("c", "uc"), ("d", "ud")],
        w.length ≤ 2) ∧
      (∀ j : Nat, outstandingAfter
        ((fetchTrace 2 [("a", "ua"), ("b", "ub"), ("c", "uc"), ("d", "ud")]).take j) ≤ 2)) :=
  ⟨by decide, C6_concurrency 2 (by decide) _⟩

/-! ## Claim C5: per-item fetch failures -/

theorem fetchOne_of_response (env : String → FetchResult) (f : String × String)
    (h : isNetError (env f.2) = false) : fetchOne env f = .ok (okRecord env f) := by
  cases henv : env f.2 with
  | netError e => rw [henv] at h; simp [isNetError] at h
  | response ok body mime =>
    rw [okRecord]
    cases hfo : fetchOne env f with
    | error e =>
      exfalso
      rw [fetchOne, henv] at hfo
      by_cases hok : ok <;> simp [hok] at hfo <;> split at hfo <;> simp_all
    | ok r => rfl

theorem fetchChunkItems_ok (env : String → FetchResult)
    (chunk : List (String × String))
    (h : ∀ f ∈ chunk, isNetError (env f.2) = false) :
    fetchChunkItems env chunk = .ok (chunk.map (okRecord env)) := by
  induction chunk with
  | nil => rfl
  | cons f fs ih =>
    rw [fetchChunkItems, fetchOne_of_response env f (h f (List.mem_cons_self _ _)),
      ih (fun g hg => h g (List.mem_cons_of_mem _ hg))]
    rfl

theorem fetchChunks_ok (env : String → FetchResult) :
    ∀ (cl : List (List (String × String))) (acc : List FileContent),
      (∀ ch ∈ cl, ∀ f ∈ ch, isNetError (env f.2) = false) →
      fetchChunks env cl acc = .ok (acc ++ cl.flatten.filterMap (okRecord env)) := by
  intro cl
  induction cl with
  | nil => intro acc _; simp [fetchChunks]
  | cons ch cl' ih =>
    intro acc h
    rw [fetchChunks, fetchChunkItems_ok env ch (h ch (List.mem_cons_self _ _))]
    show fetchChunks env cl' (acc ++ (ch.map (okRecord env)).filterMap id) = _
    rw [ih _ (fun ch' hch' => h ch' (List.mem_cons_of_mem _ hch'))]
    simp only [List.filterMap_map, Function.id_comp, List.flatten_cons,
      List.filterMap_append, List.append_assoc]

/-- Claim C5 (amended): in a batch in which no item's fetch rejects,
`fetchFileContents` succeeds and returns, in input order, exactly the
records of the items whose response was ok — an item with a non-success
status contributes no record and aborts nothing.  (A rejected fetch, by
contrast, aborts the whole call: see the counterexample.) -/
theorem C5_status_failures (env : String → FetchResult)
    (files : List (String × String))
    (h : ∀ f ∈ files, isNetError (env f.2) = false) :
    fetchFileContents env files = .ok (files.filterMap (okRecord env)) ∧
    (∀ f : String × String, ∀ body mime : String,
      env f.2 = .response false body mime → okRecord env f = none) := by
  constructor
  · rw [fetchFileContents, fetchChunks_ok env (chunks CONCURRENCY_LIMIT files) []]
    · rw [chunks_flatten]
      simp
    · intro ch hch f hf
      refine h f ?_
      rw [← chunks_flatten CONCURRENCY_LIMIT files]
      exact List.mem_flatten.2 ⟨ch, hch, hf⟩
  · intro f body mime henv
    simp [okRecord, fetchOne, henv]

/-- Claim C5, counterexample to the claim as stated: a network error on
one item does not merely drop that item — the `Promise.all` rejection
propagates and the whole batch aborts, losing the other item's record
too. -/
theorem C5_counterexample :
    fetchFileContents envNetErr [("f1.txt", "u1"), ("f2.txt", "u2")] =
      .error "boom" ∧
    okRecord envNetErr ("f2.txt", "u2") =
      some ⟨"f2.txt", "u2", "text", some "body", none, none⟩ := by
  exact ⟨rfl, by decide⟩

/-- Witness for C5: a batch with one non-ok item and one ok item keeps
the ok item's record and drops the failing one, without aborting. -/
theorem C5_witness :
    fetchFileContents envBadStatus [("f1.txt", "u1"), ("f2.txt", "u2")] =
      .ok ([("f1.txt", "u1"), ("f2.txt", "u2")].filterMap (okRecord envBadStatus)) ∧
    (∀ f : String × String, ∀ body mime : String,
      envBadStatus f.2 = .response false body mime → okRecord envBadStatus f = none) :=
  C5_status_failures envBadStatus [("f1.txt", "u1"), ("f2.txt", "u2")] (by decide)

/-! ## Claim C3: the derived status map -/

theorem combine_eq_checked (ss : List SelectionStatus) :
    combineStatuses ss = .checked ↔ ss.all (· == .checked) = true := by
  rw [combineStatuses]
  split
  · rename_i h
    exact iff_of_true rfl h
  · rename_i h
    split
    · exact iff_of_false (by intro hx; cases hx) h
    · exact iff_of_false (by intro hx; cases hx) h

theorem combine_eq_unchecked (ss : List SelectionStatus) (hne : ss ≠ []) :
    combineStatuses ss = .unchecked ↔ ss.all (· == .unchecked) = true := by
  rw [combineStatuses]
  split
  · rename_i hc
    refine iff_of_false (by intro hx; cases hx) ?_
    cases ss with
    | nil => exact absurd rfl hne
    | cons s ss' =>
      intro hu
      have h1 : s = .checked := by
        simp only [List.all_cons, Bool.and_eq_true, beq_iff_eq] at hc
        exact hc.1
      have h2 : s = .unchecked := by
        simp only [List.all_cons, Bool.and_eq_true, beq_iff_eq] at hu
        exact hu.1
      rw [h1] at h2
      cases h2
  · split
    · rename_i hu
      exact iff_of_true rfl hu
    · rename_i hu
      exact iff_of_false (by intro hx; cases hx) hu

theorem status_leaves_aux :
    (∀ t : TreeNode, ∀ sel : String → Bool,
        noEmptyDirN t = true → blobsLeafN t = true →
        (statusN sel t = .checked ↔ ∀ p ∈ blobPathsN t, sel p = true) ∧
        (statusN sel t = .unchecked ↔ ∀ p ∈ blobPathsN t, sel p = false)) ∧
    (∀ cs : List TreeNode, ∀ sel : String → Bool,
        noEmptyDirL cs = true → blobsLeafL cs = true →
        ((statusL sel cs).all (· == SelectionStatus.checked) = true ↔
          ∀ p ∈ blobPathsL cs, sel p = true) ∧
        ((statusL sel cs).all (· == SelectionStatus.unchecked) = true ↔
          ∀ p ∈ blobPathsL cs, sel p = false)) := by
  refine TreeNode.nestedInd
    (fun t => ∀ sel : String → Bool,
        noEmptyDirN t = true → blobsLeafN t = true →
        (statusN sel t = .checked ↔ ∀ p ∈ blobPathsN t, sel p = true) ∧
        (statusN sel t = .unchecked ↔ ∀ p ∈ blobPathsN t, sel p = false))
    (fun cs => ∀ sel : String → Bool,
        noEmptyDirL cs = true → blobsLeafL cs = true →
        ((statusL sel cs).all (· == SelectionStatus.checked) = true ↔
          ∀ p ∈ blobPathsL cs, sel p = true) ∧
        ((statusL sel cs).all (· == SelectionStatus.unchecked) = true ↔
          ∀ p ∈ blobPathsL cs, sel p = false))
    ?_ ?_ ?_
  · intro n p ty s u cs ih sel hne hbl
    simp only [noEmptyDirN, Bool.and_eq_true] at hne
    simp only [blobsLeafN, Bool.and_eq_true] at hbl
    cases hty : (ty == "blob") with
    | true =>
      have hcs : cs = [] := by
        have hb := hbl.1
        simp only [bne, hty, Bool.not_true, Bool.false_or, List.isEmpty_iff] at hb
        exact hb
      subst hcs
      cases hsel : sel p <;>
        simp [statusN, blobPathsN, blobPathsL, hty, hsel]
    | false =>
      have hcs : cs ≠ [] := by
        have hb := hne.1
        simp only [hty, Bool.false_or] at hb
        intro hnil
        rw [hnil] at hb
        simp at hb
      have hiff := ih sel hne.2 hbl.2
      cases cs with
      | nil => exact absurd rfl hcs
      | cons c rest =>
        have hsne : statusL sel (c :: rest) ≠ [] := by
          simp [statusL]
        constructor
        · rw [show statusN sel (.node n p ty s u (c :: rest))
              = combineStatuses (statusL sel (c :: rest)) by
              simp [statusN, hty]]
          rw [combine_eq_checked]
          simpa [blobPathsN, hty] using hiff.1
        · rw [show statusN sel (.node n p ty s u (c :: rest))
              = combineStatuses (statusL sel (c :: rest)) by
              simp [statusN, hty]]
          rw [combine_eq_unchecked _ hsne]
          simpa [blobPathsN, hty] using hiff.2
  · intro sel _ _
    simp [statusL, blobPathsL]
  · intro c rest ihc ihrest sel hne hbl
    simp only [noEmptyDirL, Bool.and_eq_true] at hne
    simp only [blobsLeafL, Bool.and_eq_true] at hbl
    have h1 := ihc sel hne.1 hbl.1
    have h2 := ihrest sel hne.2 hbl.2
    constructor
    · simp only [statusL, List.all_cons, Bool.and_eq_true, beq_iff_eq,
        blobPathsL, List.forall_mem_append]
      rw [← h1.1, ← h2.1]
    · simp only [statusL, List.all_cons, Bool.and_eq_true, beq_iff_eq,
        blobPathsL, List.forall_mem_append]
      rw [← h1.2, ← h2.2]

/-- Claim C3 (amended): a blob reads its own selection boolean; an
interior node with no children is `unchecked`; and on trees without
empty directories whose blobs are leaves, an interior node is `checked`
iff every descendant blob leaf is selected, `unchecked` iff none is,
and `indeterminate` iff some leaf is selected and some is not. -/
theorem C3_status_map (sel : String → Bool) (t : TreeNode)
    (hne : noEmptyDirN t = true) (hbl : blobsLeafN t = true) :
    (∀ t' : TreeNode, t'.type = "blob" →
      ((statusN sel t' = .checked ↔ sel t'.path = true) ∧
       (statusN sel t' = .unchecked ↔ sel t'.path = false))) ∧
    (∀ t' : TreeNode, t'.type ≠ "blob" → t'.children = [] →
      statusN sel t' = .unchecked) ∧
    ((statusN sel t = .checked ↔ ∀ p ∈ blobPathsN t, sel p = true) ∧
     (statusN sel t = .unchecked ↔ ∀ p ∈ blobPathsN t, sel p = false) ∧
     (statusN sel t = .indeterminate ↔
       ((∃ p ∈ blobPathsN t, sel p = true) ∧ (∃ p ∈ blobPathsN t, sel p = false)))) := by
  refine ⟨?_, ?_, ?_⟩
  · intro t' hty
    cases t' with
    | node n p ty s u cs =>
      have h : (ty == "blob") = true := by simpa using hty
      have hst : statusN sel (.node n p ty s u cs) =
          if sel p then .checked else .unchecked := by
        rw [statusN.eq_def]
        simp only [h, if_true]
      rw [hst, TreeNode.path_node]
      by_cases hsel : sel p = true
      · simp [hsel]
      · simp only [Bool.not_eq_true] at hsel
        simp [hsel]
  · intro t' hty hcs
    cases t' with
    | node n p ty s u cs =>
      have h : (ty == "blob") = false := by simpa using hty
      have : cs = [] := hcs
      subst this
      simp [statusN, h]
  · have h1 := (status_leaves_aux.1 t sel hne hbl).1
    have h2 := (status_leaves_aux.1 t sel hne hbl).2
    refine ⟨h1, h2, ?_⟩
    constructor
    · intro hind
      have hnc : ¬ (statusN sel t = .checked) := by rw [hind]; intro h; cases h
      have hnu : ¬ (statusN sel t = .unchecked) := by rw [hind]; intro h; cases h
      rw [h1] at hnc
      rw [h2] at hnu
      push_neg at hnc hnu
      obtain ⟨p1, hp1, hs1⟩ := hnu
      obtain ⟨p2, hp2, hs2⟩ := hnc
      exact ⟨⟨p1, hp1, by simpa using hs1⟩, ⟨p2, hp2, by simpa using hs2⟩⟩
    · rintro ⟨⟨p1, hp1, hs1⟩, ⟨p2, hp2, hs2⟩⟩
      cases hst : statusN sel t with
      | checked =>
        have := h1.1 hst p2 hp2
        rw [this] at hs2
        cases hs2
      | unchecked =>
        have := h2.1 hst p1 hp1
        rw [this] at hs1
        cases hs1
      | indeterminate => rfl

/-- Claim C3, counterexample to the claim as stated: with an (empty)
directory record next to one selected file, the root is an interior
node all of whose descendant blob leaves are selected, yet its derived
status is `indeterminate`, not `checked` — the empty directory child
counts as an `unchecked` child. -/
theorem C3_counterexample :
    (buildTree emptyDirItems).type ≠ "blob" ∧
    statusN (fun p => p == "b") (buildTree emptyDirItems) = .indeterminate ∧
    (∀ p ∈ blobPathsN (buildTree emptyDirItems), (p == "b") = true) := by
  refine ⟨by decide, by decide, by decide⟩

/-- Witness for C3: the amended statement on the two-file directory
tree with exactly one file selected. -/
theorem C3_witness :
    noEmptyDirN (buildTree toggleItems) = true ∧
    blobsLeafN (buildTree toggleItems) = true ∧
    ((∀ t' : TreeNode, t'.type = "blob" →
      ((statusN (fun p => p == "a/b") t' = .checked ↔ (fun p => p == "a/b") t'.path = true) ∧
       (statusN (fun p => p == "a/b") t' = .unchecked ↔ (fun p => p == "a/b") t'.path = false))) ∧
    (∀ t' : TreeNode, t'.type ≠ "blob" → t'.children = [] →
      statusN (fun p => p == "a/b") t' = .unchecked) ∧
    ((statusN (fun p => p == "a/b") (buildTree toggleItems) = .checked ↔
        ∀ p ∈ blobPathsN (buildTree toggleItems), (fun p => p == "a/b") p = true) ∧
     (statusN (fun p => p == "a/b") (buildTree toggleItems) = .unchecked ↔
        ∀ p ∈ blobPathsN (buildTree toggleItems), (fun p => p == "a/b") p = false) ∧
     (statusN (fun p => p == "a/b") (buildTree toggleItems) = .indeterminate ↔
       ((∃ p ∈ blobPathsN (buildTree toggleItems), (fun p => p == "a/b") p = true) ∧
        (∃ p ∈ blobPathsN (buildTree toggleItems), (fun p => p == "a/b") p = false))))) :=
  ⟨by decide, by decide,
    C3_status_map (fun p => p == "a/b") (buildTree toggleItems) (by decide) (by decide)⟩

/-! ## Claim C2: `handleToggle` -/

theorem setRec_eval_aux :
    (∀ t : TreeNode, ∀ (v : Bool) (acc : String → Bool) (q : String),
        setRecN v t acc q = if q ∈ blobPathsN t then v else acc q) ∧
    (∀ cs : List TreeNode, ∀ (v : Bool) (acc : String → Bool) (q : String),
        setRecL v cs acc q = if q ∈ blobPathsL cs then v else acc q) := by
  refine TreeNode.nestedInd
    (fun t => ∀ (v : Bool) (acc : String → Bool) (q : String),
        setRecN v t acc q = if q ∈ blobPathsN t then v else acc q)
    (fun cs => ∀ (v : Bool) (acc : String → Bool) (q : String),
        setRecL v cs acc q = if q ∈ blobPathsL cs then v else acc q)
    ?_ ?_ ?_
  · intro n p ty s u cs ih v acc q
    show setRecL v cs (if (ty == "blob") = true then Function.update acc p v else acc) q =
      if q ∈ blobPathsN (.node n p ty s u cs) then v else acc q
    have hbp : blobPathsN (.node n p ty s u cs) =
        (if (ty == "blob") = true then [p] else []) ++ blobPathsL cs := rfl
    rw [ih v _ q, hbp]
    by_cases hql : q ∈ blobPathsL cs
    · simp [hql]
    · by_cases hty : (ty == "blob") = true
      · simp only [hty, if_true, if_neg hql]
        by_cases hqp : q = p
        · subst hqp
          simp [Function.update_same, List.mem_append, hql]
        · simp [Function.update_apply, hqp, List.mem_append, hql]
      · simp [hty, hql, List.mem_append]
  · intro v acc q
    show acc q = if q ∈ ([] : List String) then v else acc q
    simp
  · intro c rest ihc ihrest v acc q
    show setRecL v rest (setRecN v c acc) q =
      if q ∈ blobPathsL (c :: rest) then v else acc q
    have hbp : blobPathsL (c :: rest) = blobPathsN c ++ blobPathsL rest := rfl
    rw [ihrest v _ q, hbp]
    by_cases hqr : q ∈ blobPathsL rest
    · simp [hqr, List.mem_append]
    · rw [if_neg hqr, ihc v acc q]
      by_cases hqc : q ∈ blobPathsN c
      · simp [hqc, List.mem_append]
      · simp [hqc, hqr, List.mem_append]

theorem post_subset_walk_aux :
    (∀ t : TreeNode, ∀ m ∈ postN t, m ∈ walkN t) ∧
    (∀ cs : List TreeNode, ∀ m ∈ postL cs, m ∈ walkL cs) := by
  refine TreeNode.nestedInd
    (fun t => ∀ m ∈ postN t, m ∈ walkN t)
    (fun cs => ∀ m ∈ postL cs, m ∈ walkL cs)
    ?_ ?_ ?_
  · intro n p ty s u cs ih m hm
    rw [postN.eq_def] at hm
    rw [walkN_node]
    simp only at hm
    cases hty : (ty == "blob") with
    | true =>
      rw [hty] at hm
      simp only [if_true, List.mem_singleton] at hm
      subst hm
      exact List.mem_cons_self _ _
    | false =>
      rw [hty] at hm
      simp only [Bool.false_eq_true, if_false, List.mem_append,
        List.mem_singleton] at hm
      rcases hm with hm | hm
      · exact List.mem_cons_of_mem _ (ih m hm)
      · subst hm
        exact List.mem_cons_self _ _
  · intro m hm
    rw [postL.eq_def] at hm
    simp at hm
  · intro c rest ihc ihrest m hm
    rw [postL.eq_def] at hm
    simp only [List.mem_append] at hm
    rw [walkL_cons]
    rcases hm with hm | hm
    · exact List.mem_append_left _ (ihc m hm)
    · exact List.mem_append_right _ (ihrest m hm)

theorem find_mem_aux :
    (∀ t : TreeNode, ∀ (p : String) (m : TreeNode),
        findByPathN p t = some m → m ∈ walkN t ∧ m.path = p) ∧
    (∀ cs : List TreeNode, ∀ (p : String) (m : TreeNode),
        findByPathL p cs = some m → m ∈ walkL cs ∧ m.path = p) := by
  refine TreeNode.nestedInd
    (fun t => ∀ (p : String) (m : TreeNode),
        findByPathN p t = some m → m ∈ walkN t ∧ m.path = p)
    (fun cs => ∀ (p : String) (m : TreeNode),
        findByPathL p cs = some m → m ∈ walkL cs ∧ m.path = p)
    ?_ ?_ ?_
  · intro n p ty s u cs ih q m hm
    rw [findByPathN.eq_def] at hm
    simp only at hm
    by_cases hpq : (p == q) = true
    · rw [if_pos hpq] at hm
      obtain rfl : TreeNode.node n p ty s u cs = m := by
        simpa using hm
      rw [walkN_node]
      exact ⟨List.mem_cons_self _ _, by simpa using hpq⟩
    · rw [if_neg hpq] at hm
      obtain ⟨hmem, hpath⟩ := ih q m hm
      rw [walkN_node]
      exact ⟨List.mem_cons_of_mem _ hmem, hpath⟩
  · intro p m hm
    rw [findByPathL.eq_def] at hm
    cases hm
  · intro c rest ihc ihrest p m hm
    rw [findByPathL.eq_def] at hm
    simp only at hm
    cases hfc : findByPathN p c with
    | some x =>
      rw [hfc] at hm
      have hxm : x = m := by simpa using hm
      obtain ⟨hmem, hpath⟩ := ihc p x hfc
      rw [hxm] at hmem hpath
      rw [walkL_cons]
      exact ⟨List.mem_append_left _ hmem, hpath⟩
    | none =>
      rw [hfc] at hm
      obtain ⟨hmem, hpath⟩ := ihrest p m hm
      rw [walkL_cons]
      exact ⟨List.mem_append_right _ hmem, hpath⟩

theorem find_map_unique (l : List TreeNode) (p : String)
    (g : TreeNode → SelectionStatus) (v : SelectionStatus)
    (hex : ∃ m ∈ l, m.path = p)
    (hall : ∀ m ∈ l, m.path = p → g m = v) :
    ((l.map (fun m => (m.path, g m))).find? (fun e => e.1 == p)).map
      (fun e => e.2) = some v := by
  induction l with
  | nil => obtain ⟨m, hm, _⟩ := hex; cases hm
  | cons m l' ih =>
    simp only [List.map_cons, List.find?_cons]
    by_cases hmp : (m.path == p) = true
    · simp only [hmp, Option.map_some]
      rw [hall m (List.mem_cons_self _ _) (by simpa using hmp)]
      rfl
    · have hmp' : m.path ≠ p := by simpa using hmp
      simp only [hmp]
      refine ih ?_ ?_
      · obtain ⟨m', hm', hp'⟩ := hex
        rcases List.mem_cons.1 hm' with rfl | hm'
        · exact absurd hp' hmp'
        · exact ⟨m', hm', hp'⟩
      · intro m' hm' hp'
        exact hall m' (List.mem_cons_of_mem _ hm') hp'

theorem statusMap_lookup (tree : TreeNode) (sel : String → Bool)
    (n : TreeNode) (p : String)
    (hnodup : ((walkN tree).map TreeNode.path).Nodup)
    (hn : n ∈ walkN tree) (hp : n.path = p)
    (hpost : p ∈ (postN tree).map TreeNode.path) :
    mapLookupLast (statusMapOf sel tree) p = some (statusN sel n) := by
  obtain ⟨m, hm, hmp⟩ := List.mem_map.1 hpost
  rw [mapLookupLast, statusMapOf, ← List.map_reverse]
  refine find_map_unique _ p _ (statusN sel n)
    ⟨m, List.mem_reverse.2 hm, hmp⟩ ?_
  intro m' hm' hm'p
  have hm'n : m' = n :=
    List.inj_on_of_nodup_map hnodup
      (post_subset_walk_aux.1 tree m' (List.mem_reverse.1 hm')) hn
      (by rw [hm'p, hp])
  rw [hm'n]

/-- Claim C2: toggling a directory whose derived status is
`indeterminate` or `unchecked` sets every descendant blob's boolean to
`true`; toggling a `checked` directory sets them all to `false`;
toggling a file flips its own boolean. -/
theorem C2_toggle (tree : TreeNode) (sel : String → Bool) (path : String)
    (n : TreeNode)
    (hnodup : ((walkN tree).map TreeNode.path).Nodup)
    (hfind : findByPathN path tree = some n)
    (hpost : path ∈ (postN tree).map TreeNode.path)
    (hdir : n.type = "tree") :
    ((statusN sel n ≠ .checked →
        ∀ q ∈ blobPathsN n, handleToggle tree sel path false q = true) ∧
     (statusN sel n = .checked →
        ∀ q ∈ blobPathsN n, handleToggle tree sel path false q = false)) ∧
    (∀ (t' : TreeNode) (s' : String → Bool) (q : String),
        handleToggle t' s' q true q = ! s' q) := by
  have hfm := find_mem_aux.1 tree path n hfind
  have hlk : mapLookupLast (statusMapOf sel tree) path = some (statusN sel n) :=
    statusMap_lookup tree sel n path hnodup hfm.1 hfm.2 hpost
  constructor
  · constructor
    · intro hst q hq
      rw [handleToggle]
      simp only [Bool.false_eq_true, if_false, hfind, hlk]
      have hdec : decide (¬ some (statusN sel n) = some SelectionStatus.checked) = true := by
        simp [hst]
      rw [hdec, setRec_eval_aux.1 n true sel q, if_pos hq]
    · intro hst q hq
      rw [handleToggle]
      simp only [Bool.false_eq_true, if_false, hfind, hlk]
      have hdec : decide (¬ some (statusN sel n) = some SelectionStatus.checked) = false := by
        simp [hst]
      rw [hdec, setRec_eval_aux.1 n false sel q, if_pos hq]
  · intro t' s' q
    rw [handleToggle]
    simp [Function.update_same]

/-- Witness for C2: toggling the directory `"a"` (derived status
`indeterminate` under a selection holding only `"a/b"`) on the
two-file tree. -/
theorem C2_witness :
    ((statusN (fun p => p == "a/b")
        (TreeNode.node "a" "a" "tree" "" ""
          [TreeNode.node "b" "a/b" "blob" "s1" "u1" [],
           TreeNode.node "c" "a/c" "blob" "s2" "u2" []]) ≠ .checked →
        ∀ q ∈ blobPathsN (TreeNode.node "a" "a" "tree" "" ""
          [TreeNode.node "b" "a/b" "blob" "s1" "u1" [],
           TreeNode.node "c" "a/c" "blob" "s2" "u2" []]),
          handleToggle (buildTree toggleItems) (fun p => p == "a/b") "a" false q = true) ∧
     (statusN (fun p => p == "a/b")
        (TreeNode.node "a" "a" "tree" "" ""
          [TreeNode.node "b" "a/b" "blob" "s1" "u1" [],
           TreeNode.node "c" "a/c" "blob" "s2" "u2" []]) = .checked →
        ∀ q ∈ blobPathsN (TreeNode.node "a" "a" "tree" "" ""
          [TreeNode.node "b" "a/b" "blob" "s1" "u1" [],
           TreeNode.node "c" "a/c" "blob" "s2" "u2" []]),
          handleToggle (buildTree toggleItems) (fun p => p == "a/b") "a" false q = false)) ∧
    (∀ (t' : TreeNode) (s' : String → Bool) (q : String),
        handleToggle t' s' q true q = ! s' q) :=
  C2_toggle (buildTree toggleItems) (fun p => p == "a/b") "a"
    (TreeNode.node "a" "a" "tree" "" ""
      [TreeNode.node "b" "a/b" "blob" "s1" "u1" [],
       TreeNode.node "c" "a/c" "blob" "s2" "u2" []])
    (by decide) rfl (by decide) rfl

/-! ## Claim C1: the shape of `buildTree`'s output -/

theorem contains_iff_mem {α : Type} [BEq α] [LawfulBEq α] (l : List α) (a : α) :
    l.contains a = true ↔ a ∈ l := by
  simp [List.contains, List.elem_iff]

theorem setChildren_name (c : TreeNode) (l : List TreeNode) :
    (c.setChildren l).name = c.name := by
  cases c; rfl

theorem setChildren_path (c : TreeNode) (l : List TreeNode) :
    (c.setChildren l).path = c.path := by
  cases c; rfl

theorem setChildren_type (c : TreeNode) (l : List TreeNode) :
    (c.setChildren l).type = c.type := by
  cases c; rfl

theorem setChildren_sha (c : TreeNode) (l : List TreeNode) :
    (c.setChildren l).sha = c.sha := by
  cases c; rfl

theorem setChildren_url (c : TreeNode) (l : List TreeNode) :
    (c.setChildren l).url = c.url := by
  cases c; rfl

theorem setChildren_children (c : TreeNode) (l : List TreeNode) :
    (c.setChildren l).children = l := by
  cases c; rfl

theorem lookupSeg_nil (q : List String) (hq : q ≠ []) :
    lookupSeg q ([] : List TreeNode) = none := by
  cases q with
  | nil => exact absurd rfl hq
  | cons p q' => rfl

theorem find_cons_name_pos (part : String) (c : TreeNode) (l : List TreeNode)
    (h : (c.name == part) = true) :
    (c :: l).find? (fun x => x.name == part) = some c :=
  @List.find?_cons_of_pos _ (fun x => x.name == part) c l h

theorem find_cons_name_neg (part : String) (c : TreeNode) (l : List TreeNode)
    (h : ¬ (c.name == part) = true) :
    (c :: l).find? (fun x => x.name == part) = l.find? (fun x => x.name == part) :=
  @List.find?_cons_of_neg _ (fun x => x.name == part) c l h

theorem find_scanInsert_self (part : String) (newNode : TreeNode)
    (mod : TreeNode → TreeNode) (stop : Bool)
    (hnew : newNode.name = part) (hmod : ∀ c, (mod c).name = c.name)
    (cs : List TreeNode) :
    (scanInsert part newNode mod stop cs).find? (fun c => c.name == part) =
      match cs.find? (fun c => c.name == part) with
      | some c => some (if stop then c else mod c)
      | none => some newNode := by
  induction cs with
  | nil =>
    simp only [scanInsert, List.find?_nil]
    rw [find_cons_name_pos part newNode [] (by simp [hnew])]
  | cons c cs' ih =>
    by_cases hc : (c.name == part) = true
    · simp only [scanInsert, hc, if_true]
      rw [find_cons_name_pos part c cs' hc]
      cases stop with
      | true => simp only [if_true]; rw [find_cons_name_pos part c cs' hc]
      | false =>
        simp only [Bool.false_eq_true, if_false]
        rw [find_cons_name_pos part (mod c) cs' (by rw [hmod c]; exact hc)]
    · simp only [scanInsert, hc, Bool.false_eq_true, if_false]
      rw [find_cons_name_neg part c (scanInsert part newNode mod stop cs') hc,
        find_cons_name_neg part c cs' hc]
      exact ih

theorem find_scanInsert_other (part : String) (newNode : TreeNode)
    (mod : TreeNode → TreeNode) (stop : Bool)
    (hnew : newNode.name = part) (hmod : ∀ c, (mod c).name = c.name)
    (q : String) (hq : q ≠ part) (cs : List TreeNode) :
    (scanInsert part newNode mod stop cs).find? (fun c => c.name == q) =
      cs.find? (fun c => c.name == q) := by
  induction cs with
  | nil =>
    simp only [scanInsert, List.find?_nil]
    rw [find_cons_name_neg q newNode []
      (by simp only [hnew, beq_iff_eq]; exact fun h => hq h.symm), List.find?_nil]
  | cons c cs' ih =>
    by_cases hc : (c.name == part) = true
    · have hcq : ¬ (c.name == q) = true := by
        have hcp : c.name = part := by simpa using hc
        rw [hcp]
        simp only [beq_iff_eq]
        exact fun h => hq h.symm
      simp only [scanInsert, hc, if_true]
      cases stop with
      | true => rfl
      | false =>
        simp only [Bool.false_eq_true, if_false]
        rw [find_cons_name_neg q (mod c) cs' (by rw [hmod c]; exact hcq),
          find_cons_name_neg q c cs' hcq]
    · simp only [scanInsert, hc, Bool.false_eq_true, if_false]
      by_cases hcq : (c.name == q) = true
      · rw [find_cons_name_pos q c (scanInsert part newNode mod stop cs') hcq,
          find_cons_name_pos q c cs' hcq]
      · rw [find_cons_name_neg q c (scanInsert part newNode mod stop cs') hcq,
          find_cons_name_neg q c cs' hcq]
        exact ih

theorem scanInsert_names (part : String) (newNode : TreeNode)
    (mod : TreeNode → TreeNode) (stop : Bool)
    (hnew : newNode.name = part) (hmod : ∀ c, (mod c).name = c.name)
    (cs : List TreeNode) :
    (scanInsert part newNode mod stop cs).map TreeNode.name =
      if part ∈ cs.map TreeNode.name then cs.map TreeNode.name
      else cs.map TreeNode.name ++ [part] := by
  induction cs with
  | nil => simp [scanInsert, hnew]
  | cons c cs' ih =>
    by_cases hc : (c.name == part) = true
    · have hcp : c.name = part := by simpa using hc
      simp only [scanInsert, hc, if_true]
      have hmem : part ∈ (c :: cs').map TreeNode.name := by
        simp [hcp.symm]
      rw [if_pos hmem]
      cases stop with
      | true => rfl
      | false => simp [hmod c]
    · have hcp : c.name ≠ part := by simpa using hc
      simp only [scanInsert, hc, Bool.false_eq_true, if_false, List.map_cons, ih]
      by_cases hmem : part ∈ cs'.map TreeNode.name
      · rw [if_pos hmem, if_pos (by simp [hmem])]
      · have hnm : part ∉ c.name :: cs'.map TreeNode.name := by
          simp only [List.mem_cons]
          push_neg
          exact ⟨fun h => hcp h.symm, hmem⟩
        rw [if_neg hmem, if_neg hnm]
        rfl

theorem wfL_cons (pre : List String) (c : TreeNode) (rest : List TreeNode) :
    wfL pre (c :: rest) =
      (wfN pre c && !((rest.map TreeNode.name).contains c.name) && wfL pre rest) := rfl

theorem wfN_node (pre : List String) (n p ty s u : String) (cs : List TreeNode) :
    wfN pre (.node n p ty s u cs) =
      (!(n.data.contains '/') && (p == joinSegs (pre ++ [n])) && wfL (pre ++ [n]) cs) := rfl

theorem wfL_cons_iff (pre : List String) (c : TreeNode) (rest : List TreeNode) :
    wfL pre (c :: rest) = true ↔
      (wfN pre c = true ∧ c.name ∉ rest.map TreeNode.name ∧ wfL pre rest = true) := by
  rw [wfL_cons]
  simp [and_assoc, List.contains, List.elem_iff]

theorem wfN_node_iff (pre : List String) (n p ty s u : String) (cs : List TreeNode) :
    wfN pre (.node n p ty s u cs) = true ↔
      ('/' ∉ n.data ∧ p = joinSegs (pre ++ [n]) ∧ wfL (pre ++ [n]) cs = true) := by
  rw [wfN_node]
  simp [and_assoc, List.contains, List.elem_iff, beq_iff_eq]

theorem wfL_scanInsert (pre : List String) (part : String) (newNode : TreeNode)
    (mod : TreeNode → TreeNode) (stop : Bool)
    (hnew : newNode.name = part) (hmod : ∀ c, (mod c).name = c.name)
    (hnew_wf : wfN pre newNode = true)
    (hmod_wf : ∀ c, c.name = part → wfN pre c = true → wfN pre (mod c) = true) :
    ∀ cs : List TreeNode, wfL pre cs = true →
      wfL pre (scanInsert part newNode mod stop cs) = true := by
  intro cs
  induction cs with
  | nil =>
    intro _
    simp only [scanInsert]
    rw [wfL_cons_iff]
    exact ⟨hnew_wf, by simp, rfl⟩
  | cons c cs' ih =>
    intro hwf
    rw [wfL_cons_iff] at hwf
    obtain ⟨hcwf, hcn, hcs'⟩ := hwf
    by_cases hc : (c.name == part) = true
    · simp only [scanInsert, hc, if_true]
      cases stop with
      | true => rw [if_pos rfl, wfL_cons_iff]; exact ⟨hcwf, hcn, hcs'⟩
      | false =>
        simp only [Bool.false_eq_true, if_false]
        rw [wfL_cons_iff]
        exact ⟨hmod_wf c (by simpa using hc) hcwf, by rw [hmod c]; exact hcn, hcs'⟩
    · simp only [scanInsert, hc, Bool.false_eq_true, if_false]
      rw [wfL_cons_iff]
      refine ⟨hcwf, ?_, ih hcs'⟩
      rw [scanInsert_names part newNode mod stop hnew hmod cs']
      by_cases hmem : part ∈ cs'.map TreeNode.name
      · rw [if_pos hmem]; exact hcn
      · rw [if_neg hmem]
        simp only [List.mem_append, List.mem_singleton]
        push_neg
        exact ⟨hcn, by simpa using hc⟩

theorem wfL_insertSeg (it : GitHubItem) :
    ∀ (rest : List String) (pre : List String) (part : String) (cs : List TreeNode),
      wfL pre cs = true → '/' ∉ part.data → (∀ x ∈ rest, '/' ∉ x.data) →
      wfL pre (insertSeg it pre part rest cs) = true := by
  intro rest
  induction rest with
  | nil =>
    intro pre part cs hwf hpart _
    simp only [insertSeg]
    refine wfL_scanInsert pre part
      (.node part (joinSegs (pre ++ [part])) it.type it.sha it.url []) id true rfl
      (fun c => rfl) ?_ (fun c _ hc => hc) cs hwf
    rw [wfN_node_iff]
    exact ⟨hpart, rfl, rfl⟩
  | cons p2 r2 ih =>
    intro pre part cs hwf hpart hrest
    simp only [insertSeg]
    refine wfL_scanInsert pre part
      (.node part (joinSegs (pre ++ [part])) "tree" "" ""
        (insertSeg it (pre ++ [part]) p2 r2 []))
      (fun c => c.setChildren (insertSeg it (pre ++ [part]) p2 r2 c.children))
      false rfl (fun c => setChildren_name c _) ?_ ?_ cs hwf
    · rw [wfN_node_iff]
      refine ⟨hpart, rfl, ?_⟩
      exact ih (pre ++ [part]) p2 [] rfl (hrest p2 (List.mem_cons_self _ _))
        (fun x hx => hrest x (List.mem_cons_of_mem _ hx))
    · intro c hcname hcwf
      cases c with
      | node nm pp tyc sc uc csc =>
        have hnm : nm = part := hcname
        subst hnm
        show wfN pre (.node nm pp tyc sc uc
          (insertSeg it (pre ++ [nm]) p2 r2 csc)) = true
        rw [wfN_node_iff] at hcwf ⊢
        obtain ⟨h1, h2, h3⟩ := hcwf
        refine ⟨h1, h2, ?_⟩
        exact ih (pre ++ [nm]) p2 csc h3 (hrest p2 (List.mem_cons_self _ _))
          (fun x hx => hrest x (List.mem_cons_of_mem _ hx))

theorem lookupSeg_insertSeg_untouched (it : GitHubItem) :
    ∀ (rest : List String) (pre : List String) (part : String) (cs : List TreeNode)
      (q : List String), ¬ q <+: (part :: rest) →
      lookupSeg q (insertSeg it pre part rest cs) = lookupSeg q cs := by
  intro rest
  induction rest with
  | nil =>
    intro pre part cs q hq
    cases q with
    | nil => rfl
    | cons p q' =>
      simp only [insertSeg]
      by_cases hp : p = part
      · subst hp
        have hq' : q' ≠ [] := by
          intro h
          exact hq (by rw [h])
        simp only [lookupSeg]
        rw [find_scanInsert_self p
          (.node p (joinSegs (pre ++ [p])) it.type it.sha it.url []) id true rfl
          (fun c => rfl) cs]
        cases hf : cs.find? (fun c => c.name == p) with
        | some c => simp [hq']
        | none => simp [hq', TreeNode.children_node, lookupSeg_nil q' hq']
      · simp only [lookupSeg]
        rw [find_scanInsert_other part
          (.node part (joinSegs (pre ++ [part])) it.type it.sha it.url []) id true rfl
          (fun c => rfl) p hp cs]
  | cons p2 r2 ih =>
    intro pre part cs q hq
    cases q with
    | nil => rfl
    | cons p q' =>
      simp only [insertSeg]
      by_cases hp : p = part
      · subst hp
        have hq' : ¬ q' <+: (p2 :: r2) := fun h => hq (List.cons_prefix_cons.2 ⟨rfl, h⟩)
        have hq'ne : q' ≠ [] := fun h => hq' (h ▸ List.nil_prefix)
        simp only [lookupSeg]
        rw [find_scanInsert_self p
          (.node p (joinSegs (pre ++ [p])) "tree" "" ""
            (insertSeg it (pre ++ [p]) p2 r2 []))
          (fun c => c.setChildren (insertSeg it (pre ++ [p]) p2 r2 c.children))
          false rfl (fun c => setChildren_name c _) cs]
        cases hf : cs.find? (fun c => c.name == p) with
        | some c =>
          simp only [Bool.false_eq_true, if_false, if_neg hq'ne]
          rw [setChildren_children]
          exact ih (pre ++ [p]) p2 c.children q' hq'
        | none =>
          simp only [if_neg hq'ne, TreeNode.children_node]
          rw [ih (pre ++ [p]) p2 [] q' hq']
          exact lookupSeg_nil q' hq'ne
      · simp only [lookupSeg]
        rw [find_scanInsert_other part
          (.node part (joinSegs (pre ++ [part])) "tree" "" ""
            (insertSeg it (pre ++ [part]) p2 r2 []))
          (fun c => c.setChildren (insertSeg it (pre ++ [part]) p2 r2 c.children))
          false rfl (fun c => setChildren_name c _) p hp cs]

theorem lookupSeg_insertSeg_prefix (it : GitHubItem) :
    ∀ (rest : List String) (pre : List String) (part : String) (cs : List TreeNode)
      (q : List String), q <+: (part :: rest) → q ≠ [] →
      (∀ n, lookupSeg q cs = some n →
          ∃ n', lookupSeg q (insertSeg it pre part rest cs) = some n' ∧
            n'.name = n.name ∧ n'.path = n.path ∧ n'.type = n.type ∧
            n'.sha = n.sha ∧ n'.url = n.url) ∧
      (lookupSeg q cs = none →
          ∃ n', lookupSeg q (insertSeg it pre part rest cs) = some n' ∧
            n'.path = joinSegs (pre ++ q) ∧
            ((q = part :: rest ∧ n'.type = it.type ∧ n'.sha = it.sha ∧ n'.url = it.url) ∨
             (q ≠ part :: rest ∧ n'.type = "tree" ∧ n'.sha = "" ∧ n'.url = ""))) := by
  intro rest
  induction rest with
  | nil =>
    intro pre part cs q hpre hne
    cases q with
    | nil => exact absurd rfl hne
    | cons p q' =>
      obtain ⟨hp, hq'⟩ := List.cons_prefix_cons.1 hpre
      subst hp
      have hq'nil : q' = [] := List.prefix_nil.1 hq'
      subst hq'nil
      constructor
      · intro n hn
        simp only [lookupSeg] at hn
        simp only [insertSeg, lookupSeg]
        rw [find_scanInsert_self p
          (.node p (joinSegs (pre ++ [p])) it.type it.sha it.url []) id true rfl
          (fun c => rfl) cs]
        cases hf : cs.find? (fun c => c.name == p) with
        | some c =>
          rw [hf] at hn
          simp at hn
          refine ⟨c, by simp, ?_, ?_, ?_, ?_, ?_⟩ <;> rw [hn]
        | none => rw [hf] at hn; cases hn
      · intro hn
        simp only [lookupSeg] at hn
        simp only [insertSeg, lookupSeg]
        rw [find_scanInsert_self p
          (.node p (joinSegs (pre ++ [p])) it.type it.sha it.url []) id true rfl
          (fun c => rfl) cs]
        cases hf : cs.find? (fun c => c.name == p) with
        | some c => rw [hf] at hn; simp at hn
        | none =>
          refine ⟨.node p (joinSegs (pre ++ [p])) it.type it.sha it.url [], ?_, rfl, ?_⟩
          · simp
          · left
            exact ⟨by simp, rfl, rfl, rfl⟩
  | cons p2 r2 ih =>
    intro pre part cs q hpre hne
    cases q with
    | nil => exact absurd rfl hne
    | cons p q' =>
      obtain ⟨hp, hq'⟩ := List.cons_prefix_cons.1 hpre
      subst hp
      by_cases hq'nil : q' = []
      · subst hq'nil
        constructor
        · intro n hn
          simp only [lookupSeg] at hn
          simp only [insertSeg, lookupSeg]
          rw [find_scanInsert_self p
            (.node p (joinSegs (pre ++ [p])) "tree" "" ""
              (insertSeg it (pre ++ [p]) p2 r2 []))
            (fun c => c.setChildren (insertSeg it (pre ++ [p]) p2 r2 c.children))
            false rfl (fun c => setChildren_name c _) cs]
          cases hf : cs.find? (fun c => c.name == p) with
          | some c =>
            rw [hf] at hn
            simp at hn
            refine ⟨c.setChildren (insertSeg it (pre ++ [p]) p2 r2 c.children),
              by simp, ?_, ?_, ?_, ?_, ?_⟩ <;>
              simp only [setChildren_name, setChildren_path, setChildren_type,
                setChildren_sha, setChildren_url] <;> rw [hn]
          | none => rw [hf] at hn; cases hn
        · intro hn
          simp only [lookupSeg] at hn
          simp only [insertSeg, lookupSeg]
          rw [find_scanInsert_self p
            (.node p (joinSegs (pre ++ [p])) "tree" "" ""
              (insertSeg it (pre ++ [p]) p2 r2 []))
            (fun c => c.setChildren (insertSeg it (pre ++ [p]) p2 r2 c.children))
            false rfl (fun c => setChildren_name c _) cs]
          cases hf : cs.find? (fun c => c.name == p) with
          | some c => rw [hf] at hn; simp at hn
          | none =>
            refine ⟨.node p (joinSegs (pre ++ [p])) "tree" "" ""
              (insertSeg it (pre ++ [p]) p2 r2 []), ?_, rfl, ?_⟩
            · simp
            · right
              refine ⟨?_, rfl, rfl, rfl⟩
              simp
      · have hq'p : q' <+: (p2 :: r2) := hq'
        constructor
        · intro n hn
          simp only [lookupSeg] at hn
          simp only [insertSeg, lookupSeg]
          rw [find_scanInsert_self p
            (.node p (joinSegs (pre ++ [p])) "tree" "" ""
              (insertSeg it (pre ++ [p]) p2 r2 []))
            (fun c => c.setChildren (insertSeg it (pre ++ [p]) p2 r2 c.children))
            false rfl (fun c => setChildren_name c _) cs]
          cases hf : cs.find? (fun c => c.name == p) with
          | some c =>
            rw [hf] at hn
            simp only [Bool.false_eq_true, if_false, if_neg hq'nil] at hn ⊢
            rw [setChildren_children]
            exact (ih (pre ++ [p]) p2 c.children q' hq'p hq'nil).1 n hn
          | none => rw [hf] at hn; cases hn
        · intro hn
          simp only [lookupSeg] at hn
          simp only [insertSeg, lookupSeg]
          rw [find_scanInsert_self p
            (.node p (joinSegs (pre ++ [p])) "tree" "" ""
              (insertSeg it (pre ++ [p]) p2 r2 []))
            (fun c => c.setChildren (insertSeg it (pre ++ [p]) p2 r2 c.children))
            false rfl (fun c => setChildren_name c _) cs]
          cases hf : cs.find? (fun c => c.name == p) with
          | some c =>
            rw [hf] at hn
            simp only [Bool.false_eq_true, if_false, if_neg hq'nil] at hn ⊢
            rw [setChildren_children]
            obtain ⟨n', hn', hpath, hdisj⟩ :=
              (ih (pre ++ [p]) p2 c.children q' hq'p hq'nil).2 hn
            refine ⟨n', hn', ?_, ?_⟩
            · rw [hpath, List.append_assoc]
              rfl
            · rcases hdisj with ⟨hq, hf1, hf2, hf3⟩ | ⟨hq, hf1, hf2, hf3⟩
              · left
                exact ⟨by rw [hq], hf1, hf2, hf3⟩
              · right
                refine ⟨?_, hf1, hf2, hf3⟩
                intro habs
                exact hq (by injection habs)
          | none =>
            simp only [if_neg hq'nil, TreeNode.children_node]
            obtain ⟨n', hn', hpath, hdisj⟩ :=
              (ih (pre ++ [p]) p2 [] q' hq'p hq'nil).2 (lookupSeg_nil q' hq'nil)
            refine ⟨n', hn', ?_, ?_⟩
            · rw [hpath, List.append_assoc]
              rfl
            · rcases hdisj with ⟨hq, hf1, hf2, hf3⟩ | ⟨hq, hf1, hf2, hf3⟩
              · left
                exact ⟨by rw [hq], hf1, hf2, hf3⟩
              · right
                refine ⟨?_, hf1, hf2, hf3⟩
                intro habs
                exact hq (by injection habs)

theorem lookupSeg_nil_any (q : List String) :
    lookupSeg q ([] : List TreeNode) = none := by
  cases q with
  | nil => rfl
  | cons p q' => rfl

theorem TreeInv_nil : TreeInv [] [] := by
  refine ⟨rfl, ?_, ?_⟩
  · intro q
    constructor
    · intro h
      rw [lookupSeg_nil_any q] at h
      simp at h
    · rintro ⟨hne, r, hr, -⟩
      simp at hr
  · intro q n h
    rw [lookupSeg_nil_any q] at h
    cases h

theorem TreeInv_insert (S : List GitHubItem) (cs : List TreeNode) (i : GitHubItem)
    (part : String) (rest : List String)
    (hip : itemParts i = part :: rest)
    (hinv : TreeInv S cs)
    (hfresh : ∀ r ∈ S, ¬ itemParts i <+: itemParts r) :
    TreeInv (S ++ [i]) (insertSeg i [] part rest cs) := by
  obtain ⟨hwf, hiff, hexp⟩ := hinv
  have hsep : ∀ x ∈ itemParts i, '/' ∉ x.data := mem_splitStr_sep_free '/' i.path
  have hsep' : ∀ x ∈ part :: rest, '/' ∉ x.data := by rw [← hip]; exact hsep
  refine ⟨?_, ?_, ?_⟩
  · exact wfL_insertSeg i rest [] part cs hwf
      (hsep' part (List.mem_cons_self part rest))
      (fun x hx => hsep' x (List.mem_cons_of_mem part hx))
  · intro q
    by_cases hq : q <+: part :: rest
    · by_cases hqe : q = []
      · subst hqe
        constructor
        · intro h
          rw [show lookupSeg ([] : List String) (insertSeg i [] part rest cs) = none
            from rfl] at h
          simp at h
        · rintro ⟨hne, -⟩
          exact absurd rfl hne
      · constructor
        · intro _
          exact ⟨hqe, i, List.mem_append_right _ (by simp), by rw [hip]; exact hq⟩
        · intro _
          obtain ⟨hex, hcr⟩ := lookupSeg_insertSeg_prefix i rest [] part cs q hq hqe
          cases hl : lookupSeg q cs with
          | some m =>
            obtain ⟨n', hn', -⟩ := hex m hl
            rw [hn']
            rfl
          | none =>
            obtain ⟨n', hn', -⟩ := hcr hl
            rw [hn']
            rfl
    · rw [lookupSeg_insertSeg_untouched i rest [] part cs q hq]
      rw [hiff q]
      constructor
      · rintro ⟨hne, r, hr, hp⟩
        exact ⟨hne, r, List.mem_append_left _ hr, hp⟩
      · rintro ⟨hne, r, hr, hp⟩
        rcases List.mem_append.1 hr with h | h
        · exact ⟨hne, r, h, hp⟩
        · have hri : r = i := by simpa using h
          subst hri
          rw [hip] at hp
          exact absurd hp hq
  · intro q n hn
    by_cases hq : q <+: part :: rest
    · have hqe : q ≠ [] := by
        intro h
        subst h
        rw [show lookupSeg ([] : List String) (insertSeg i [] part rest cs) = none
          from rfl] at hn
        cases hn
      obtain ⟨hex, hcr⟩ := lookupSeg_insertSeg_prefix i rest [] part cs q hq hqe
      cases hl : lookupSeg q cs with
      | some m =>
        obtain ⟨n', hn', hname, hpath, hty, hsha, hurl⟩ := hex m hl
        rw [hn'] at hn
        injection hn with h
        subst h
        obtain ⟨hmp, hmd⟩ := hexp q m hl
        refine ⟨by rw [hpath, hmp], ?_⟩
        rcases hmd with ⟨r, hr, hrq, h1, h2, h3⟩ | ⟨hall, h1, h2, h3⟩
        · exact Or.inl ⟨r, List.mem_append_left _ hr, hrq,
            by rw [hty, h1], by rw [hsha, h2], by rw [hurl, h3]⟩
        · refine Or.inr ⟨?_, by rw [hty, h1], by rw [hsha, h2], by rw [hurl, h3]⟩
          intro r hr
          rcases List.mem_append.1 hr with h | h
          · exact hall r h
          · have hri : r = i := by simpa using h
            subst hri
            intro habs
            have hcl : InClosure S q := (hiff q).1 (by rw [hl]; rfl)
            obtain ⟨-, r', hr', hp'⟩ := hcl
            exact hfresh r' hr' (by rw [habs]; exact hp')
      | none =>
        obtain ⟨n', hn', hpath, hdisj⟩ := hcr hl
        rw [hn'] at hn
        injection hn with h
        subst h
        refine ⟨by rw [hpath]; rfl, ?_⟩
        rcases hdisj with ⟨hq2, h1, h2, h3⟩ | ⟨hq2, h1, h2, h3⟩
        · exact Or.inl ⟨i, List.mem_append_right _ (by simp),
            by rw [hip, hq2], h1, h2, h3⟩
        · refine Or.inr ⟨?_, h1, h2, h3⟩
          intro r hr habs
          rcases List.mem_append.1 hr with h | h
          · have hcl : InClosure S q := ⟨hqe, r, h, by rw [habs]⟩
            have hsome := (hiff q).2 hcl
            rw [hl] at hsome
            simp at hsome
          · have hri : r = i := by simpa using h
            subst hri
            rw [hip] at habs
            exact hq2 habs.symm
    · rw [lookupSeg_insertSeg_untouched i rest [] part cs q hq] at hn
      obtain ⟨hp, hd⟩ := hexp q n hn
      refine ⟨hp, ?_⟩
      rcases hd with ⟨r, hr, hrq, h1, h2, h3⟩ | ⟨hall, h1, h2, h3⟩
      · exact Or.inl ⟨r, List.mem_append_left _ hr, hrq, h1, h2, h3⟩
      · refine Or.inr ⟨?_, h1, h2, h3⟩
        intro r hr
        rcases List.mem_append.1 hr with h | h
        · exact hall r h
        · have hri : r = i := by simpa using h
          subst hri
          intro habs
          have hqq : q = part :: rest := by rw [← habs]; exact hip
          refine hq ?_
          rw [hqq]

theorem foldl_insertItem_inv :
    ∀ (todo done : List GitHubItem) (cs : List TreeNode),
      TreeInv done cs →
      ((done ++ todo).map GitHubItem.path).Nodup →
      (∀ r1 ∈ done ++ todo, ∀ r2 ∈ done ++ todo,
        itemParts r1 <+: itemParts r2 → r1.path = r2.path) →
      ∃ cs', List.foldl insertItem (.node "root" "" "tree" "" "" cs) todo
          = .node "root" "" "tree" "" "" cs' ∧ TreeInv (done ++ todo) cs' := by
  intro todo
  induction todo with
  | nil =>
    intro done cs hinv _ _
    exact ⟨cs, rfl, by simpa using hinv⟩
  | cons i todo ih =>
    intro done cs hinv hnd hpf
    obtain ⟨part, rest, hip⟩ : ∃ part rest, itemParts i = part :: rest := by
      cases h : itemParts i with
      | nil => exact absurd h (splitStr_ne_nil '/' i.path)
      | cons p r => exact ⟨p, r, rfl⟩
    have hfresh : ∀ r ∈ done, ¬ itemParts i <+: itemParts r := by
      intro r hr hpre
      have heq : i.path = r.path :=
        hpf i (by simp) r (List.mem_append_left _ hr) hpre
      rw [List.map_append] at hnd
      have hdisj := (List.nodup_append.1 hnd).2.2
      exact hdisj (List.mem_map_of_mem _ hr) (by rw [← heq]; simp)
    have hip' : splitStr '/' i.path = part :: rest := hip
    have hstep : insertItem (TreeNode.node "root" "" "tree" "" "" cs) i
        = TreeNode.node "root" "" "tree" "" "" (insertSeg i [] part rest cs) := by
      simp only [insertItem, hip']
      rfl
    have hinv' := TreeInv_insert done cs i part rest hip hinv hfresh
    have happ : (done ++ [i]) ++ todo = done ++ i :: todo := by simp
    have hnd' : (((done ++ [i]) ++ todo).map GitHubItem.path).Nodup := by
      rw [happ]
      exact hnd
    have hpf' : ∀ r1 ∈ (done ++ [i]) ++ todo, ∀ r2 ∈ (done ++ [i]) ++ todo,
        itemParts r1 <+: itemParts r2 → r1.path = r2.path := by
      intro r1 h1 r2 h2
      rw [happ] at h1 h2
      exact hpf r1 h1 r2 h2
    obtain ⟨cs', hfold, hinv''⟩ :=
      ih (done ++ [i]) (insertSeg i [] part rest cs) hinv' hnd' hpf'
    refine ⟨cs', ?_, ?_⟩
    · rw [List.foldl_cons, hstep]
      exact hfold
    · rw [← happ]
      exact hinv''

theorem buildTree_inv (items : List GitHubItem)
    (hnd : (items.map GitHubItem.path).Nodup)
    (hpf : ∀ r1 ∈ items, ∀ r2 ∈ items,
      itemParts r1 <+: itemParts r2 → r1.path = r2.path) :
    ∃ cs', buildTree items = .node "root" "" "tree" "" "" cs' ∧ TreeInv items cs' := by
  obtain ⟨cs', h1, h2⟩ := foldl_insertItem_inv items [] [] TreeInv_nil
    (by simpa using hnd) (by simpa using hpf)
  exact ⟨cs', h1, by simpa using h2⟩

theorem mem_walkN_self (t : TreeNode) : t ∈ walkN t := by
  cases t with
  | node n p ty s u cs =>
    rw [walkN_node]
    exact List.mem_cons_self _ _

theorem walkN_subset_walkL (c : TreeNode) (cs : List TreeNode) (hc : c ∈ cs) :
    ∀ x ∈ walkN c, x ∈ walkL cs := by
  induction cs with
  | nil => cases hc
  | cons d rest ih =>
    intro x hx
    rw [walkL_cons]
    rcases List.mem_cons.1 hc with h | h
    · subst h
      exact List.mem_append_left _ hx
    · exact List.mem_append_right _ (ih h x hx)

theorem lookupSeg_mem_walkL :
    ∀ (q : List String) (cs : List TreeNode) (n : TreeNode),
      lookupSeg q cs = some n → n ∈ walkL cs := by
  intro q
  induction q with
  | nil =>
    intro cs n h
    cases h
  | cons p q' ih =>
    intro cs n h
    simp only [lookupSeg] at h
    cases hf : cs.find? (fun c => c.name == p) with
    | none =>
      rw [hf] at h
      cases h
    | some c =>
      rw [hf] at h
      have hc : c ∈ cs := List.mem_of_find?_eq_some hf
      have h' : (if q' = [] then some c else lookupSeg q' c.children) = some n := h
      by_cases hq : q' = []
      · rw [if_pos hq] at h'
        injection h' with h'
        subst h'
        exact walkN_subset_walkL c cs hc c (mem_walkN_self c)
      · rw [if_neg hq] at h'
        have hmem := ih c.children n h'
        have hwn : n ∈ walkN c := by
          cases c with
          | node nm pp ty sh ur cc =>
            rw [walkN_node]
            exact List.mem_cons_of_mem _ hmem
        exact walkN_subset_walkL c cs hc n hwn

theorem walk_lookup_aux :
    (∀ t, ∀ pre, wfN pre t = true → ∀ n ∈ walkN t,
        n = t ∨ ∃ q, q ≠ [] ∧ lookupSeg q t.children = some n) ∧
    (∀ cs, ∀ pre, wfL pre cs = true → ∀ n ∈ walkL cs,
        ∃ q, q ≠ [] ∧ lookupSeg q cs = some n) := by
  refine TreeNode.nestedInd _ _ ?_ ?_ ?_
  · intro nm p ty s u cs hQ pre hwf n hn
    rw [walkN_node] at hn
    rcases List.mem_cons.1 hn with h | h
    · exact Or.inl h
    · obtain ⟨-, -, hchild⟩ := (wfN_node_iff pre nm p ty s u cs).1 hwf
      obtain ⟨q, hq, hl⟩ := hQ (pre ++ [nm]) hchild n h
      exact Or.inr ⟨q, hq, hl⟩
  · intro pre _ n hn
    rw [walkL_nil] at hn
    exact absurd hn (List.not_mem_nil n)
  · intro c rest hP hQ pre hwf n hn
    rw [walkL_cons] at hn
    obtain ⟨hwfc, hname, hwfrest⟩ := (wfL_cons_iff pre c rest).1 hwf
    rcases List.mem_append.1 hn with h | h
    · rcases hP pre hwfc n h with h1 | ⟨q, hq, hl⟩
      · subst h1
        refine ⟨[n.name], by simp, ?_⟩
        simp only [lookupSeg]
        rw [find_cons_name_pos n.name n rest (by simp)]
        simp
      · refine ⟨c.name :: q, by simp, ?_⟩
        simp only [lookupSeg]
        rw [find_cons_name_pos c.name c rest (by simp)]
        simp only [if_neg hq]
        exact hl
    · obtain ⟨q, hq, hl⟩ := hQ pre hwfrest n h
      cases q with
      | nil => exact absurd rfl hq
      | cons p q'' =>
        refine ⟨p :: q'', hq, ?_⟩
        simp only [lookupSeg] at hl ⊢
        cases hf : rest.find? (fun x => x.name == p) with
        | none =>
          rw [hf] at hl
          cases hl
        | some d =>
          rw [hf] at hl
          have hd : d ∈ rest := List.mem_of_find?_eq_some hf
          have hdp : (d.name == p) = true :=
            @List.find?_some _ (fun x => x.name == p) d rest hf
          have hcp : ¬ (c.name == p) = true := by
            intro hcontra
            apply hname
            have hce : c.name = p := by simpa using hcontra
            rw [hce]
            exact List.mem_map.2 ⟨d, hd, by simpa using hdp⟩
          rw [find_cons_name_neg p c rest hcp, hf]
          exact hl

theorem nameSeqsN_node (n p ty s u : String) (cs : List TreeNode) :
    nameSeqsN (.node n p ty s u cs)
      = [n] :: (nameSeqsL cs).map (fun q => n :: q) := by
  rw [nameSeqsN]

theorem nameSeqsL_nil : nameSeqsL [] = [] := by rw [nameSeqsL]

theorem nameSeqsL_cons (c : TreeNode) (rest : List TreeNode) :
    nameSeqsL (c :: rest) = nameSeqsN c ++ nameSeqsL rest := by
  rw [nameSeqsL]

theorem nameSeqs_shape :
    (∀ t, ∀ q ∈ nameSeqsN t, ∃ tl, q = t.name :: tl) ∧
    (∀ cs, ∀ q ∈ nameSeqsL cs,
      ∃ h tl, q = h :: tl ∧ h ∈ cs.map TreeNode.name) := by
  refine TreeNode.nestedInd _ _ ?_ ?_ ?_
  · intro nm p ty s u cs _ q hq
    rw [nameSeqsN_node] at hq
    rcases List.mem_cons.1 hq with h | h
    · exact ⟨[], h⟩
    · obtain ⟨q', _, rfl⟩ := List.mem_map.1 h
      exact ⟨q', rfl⟩
  · intro q hq
    rw [nameSeqsL_nil] at hq
    exact absurd hq (List.not_mem_nil q)
  · intro c rest hP hQ q hq
    rw [nameSeqsL_cons] at hq
    rcases List.mem_append.1 hq with h | h
    · obtain ⟨tl, htl⟩ := hP q h
      exact ⟨c.name, tl, htl, by simp⟩
    · obtain ⟨hd, tl, htl, hhd⟩ := hQ q h
      exact ⟨hd, tl, htl, List.mem_cons_of_mem _ hhd⟩

theorem nameSeqs_nodup :
    (∀ t, ∀ pre, wfN pre t = true → (nameSeqsN t).Nodup) ∧
    (∀ cs, ∀ pre, wfL pre cs = true → (nameSeqsL cs).Nodup) := by
  refine TreeNode.nestedInd _ _ ?_ ?_ ?_
  · intro nm p ty s u cs hQ pre hwf
    obtain ⟨-, -, hchild⟩ := (wfN_node_iff pre nm p ty s u cs).1 hwf
    rw [nameSeqsN_node]
    refine List.Nodup.cons ?_ ?_
    · intro habs
      obtain ⟨q', hq', heq⟩ := List.mem_map.1 habs
      have : q' = [] := by injection heq with h1 h2
      subst this
      obtain ⟨hd, tl, htl, -⟩ := (nameSeqs_shape).2 cs [] hq'
      cases htl
    · exact List.Nodup.map (fun a b hab => by injection hab) (hQ (pre ++ [nm]) hchild)
  · intro pre _
    rw [nameSeqsL_nil]
    exact List.nodup_nil
  · intro c rest hP hQ pre hwf
    obtain ⟨hwfc, hname, hwfrest⟩ := (wfL_cons_iff pre c rest).1 hwf
    rw [nameSeqsL_cons]
    refine List.Nodup.append (hP pre hwfc) (hQ pre hwfrest) ?_
    intro q hq1 hq2
    obtain ⟨tl, htl⟩ := (nameSeqs_shape).1 c q hq1
    obtain ⟨hd, tl', htl', hhd⟩ := (nameSeqs_shape).2 rest q hq2
    rw [htl] at htl'
    have : c.name = hd := by injection htl'
    exact hname (this ▸ hhd)

theorem nameSeqs_sep_free :
    (∀ t, ∀ pre, wfN pre t = true →
      ∀ q ∈ nameSeqsN t, ∀ x ∈ q, '/' ∉ x.data) ∧
    (∀ cs, ∀ pre, wfL pre cs = true →
      ∀ q ∈ nameSeqsL cs, ∀ x ∈ q, '/' ∉ x.data) := by
  refine TreeNode.nestedInd _ _ ?_ ?_ ?_
  · intro nm p ty s u cs hQ pre hwf q hq x hx
    obtain ⟨hsep, -, hchild⟩ := (wfN_node_iff pre nm p ty s u cs).1 hwf
    rw [nameSeqsN_node] at hq
    rcases List.mem_cons.1 hq with h | h
    · subst h
      have : x = nm := by simpa using hx
      subst this
      exact hsep
    · obtain ⟨q', hq', rfl⟩ := List.mem_map.1 h
      rcases List.mem_cons.1 hx with h' | h'
      · subst h'
        exact hsep
      · exact hQ (pre ++ [nm]) hchild q' hq' x h'
  · intro pre _ q hq
    rw [nameSeqsL_nil] at hq
    exact absurd hq (List.not_mem_nil q)
  · intro c rest hP hQ pre hwf q hq x hx
    obtain ⟨hwfc, -, hwfrest⟩ := (wfL_cons_iff pre c rest).1 hwf
    rw [nameSeqsL_cons] at hq
    rcases List.mem_append.1 hq with h | h
    · exact hP pre hwfc q h x hx
    · exact hQ pre hwfrest q h x hx

theorem walk_paths_eq :
    (∀ t, ∀ pre, wfN pre t = true →
      (walkN t).map TreeNode.path
        = (nameSeqsN t).map (fun q => joinSegs (pre ++ q))) ∧
    (∀ cs, ∀ pre, wfL pre cs = true →
      (walkL cs).map TreeNode.path
        = (nameSeqsL cs).map (fun q => joinSegs (pre ++ q))) := by
  refine TreeNode.nestedInd _ _ ?_ ?_ ?_
  · intro nm p ty s u cs hQ pre hwf
    obtain ⟨-, hp, hchild⟩ := (wfN_node_iff pre nm p ty s u cs).1 hwf
    rw [walkN_node, nameSeqsN_node]
    simp only [List.map_cons, List.map_map]
    show p :: List.map TreeNode.path (walkL cs) = _
    rw [hp, hQ (pre ++ [nm]) hchild]
    congr 1
    refine List.map_congr_left ?_
    intro q hq
    show joinSegs ((pre ++ [nm]) ++ q) = joinSegs (pre ++ nm :: q)
    rw [List.append_assoc]
    rfl
  · intro pre _
    rw [walkL_nil, nameSeqsL_nil]
    rfl
  · intro c rest hP hQ pre hwf
    obtain ⟨hwfc, -, hwfrest⟩ := (wfL_cons_iff pre c rest).1 hwf
    rw [walkL_cons, nameSeqsL_cons, List.map_append, List.map_append,
      hP pre hwfc, hQ pre hwfrest]

theorem walk_paths_nodup (cs : List TreeNode) (h : wfL [] cs = true) :
    ((walkL cs).map TreeNode.path).Nodup := by
  rw [(walk_paths_eq).2 cs [] h]
  refine List.Nodup.map_on ?_ ((nameSeqs_nodup).2 cs [] h)
  intro q1 h1 q2 h2 heq
  obtain ⟨hd1, tl1, htl1, -⟩ := (nameSeqs_shape).2 cs q1 h1
  obtain ⟨hd2, tl2, htl2, -⟩ := (nameSeqs_shape).2 cs q2 h2
  refine joinSegs_injOn q1 q2 (by rw [htl1]; simp) (by rw [htl2]; simp)
    ((nameSeqs_sep_free).2 cs [] h q1 h1) ((nameSeqs_sep_free).2 cs [] h q2 h2) heq

theorem prefix_path_mem (items : List GitHubItem) (r : GitHubItem)
    (hr : r ∈ items) (q : List String) (hq : q ≠ []) (hpre : q <+: itemParts r) :
    joinSegs q = r.path ∨ joinSegs q ∈ strictPrefixPaths items := by
  by_cases h : q = itemParts r
  · left
    rw [h]
    exact joinSegs_split r.path
  · right
    have hlen : q.length ≤ (itemParts r).length := hpre.length_le
    have hlt : q.length < (itemParts r).length :=
      lt_of_le_of_ne hlen (fun hlen_eq => h (hpre.eq_of_length hlen_eq))
    have htake : q = (itemParts r).take q.length := List.prefix_iff_eq_take.1 hpre
    have hq0 : 0 < q.length := List.length_pos.2 hq
    refine List.mem_flatMap.2 ⟨r, hr, ?_⟩
    refine List.mem_map.2 ⟨q, ?_, rfl⟩
    refine List.mem_map.2 ⟨q.length - 1, List.mem_range.2 (by omega), ?_⟩
    rw [show q.length - 1 + 1 = q.length from by omega]
    exact htake.symm

/-- Claim C1 (amended): for an input listing with pairwise-distinct paths in
which a record's segment sequence is a prefix of another's only when the two
paths are equal, a full walk of the children of the tree `buildTree` builds
has pairwise-distinct node paths; it contains, for every input record, a node
carrying the record's path, type, sha and url; it contains, for every strict
prefix path of an input path, a node with that path of type `"tree"` with
empty sha and url; and every walked node's path is an input path or a strict
prefix path.  (The original claim, quantified over all duplicate-free inputs,
is refuted by `C1_counterexample`: when one record's path is a proper prefix
of another's, the shorter record's type, sha and url are dropped.) -/
theorem C1_buildTree (items : List GitHubItem)
    (hnd : (items.map GitHubItem.path).Nodup)
    (hpf : ∀ r1 ∈ items, ∀ r2 ∈ items,
      itemParts r1 <+: itemParts r2 → r1.path = r2.path) :
    ((walkL (buildTree items).children).map TreeNode.path).Nodup ∧
    (∀ r ∈ items, ∃ n ∈ walkL (buildTree items).children,
      n.path = r.path ∧ n.type = r.type ∧ n.sha = r.sha ∧ n.url = r.url) ∧
    (∀ s ∈ strictPrefixPaths items, ∃ n ∈ walkL (buildTree items).children,
      n.path = s ∧ n.type = "tree" ∧ n.sha = "" ∧ n.url = "") ∧
    (∀ n ∈ walkL (buildTree items).children,
      n.path ∈ items.map GitHubItem.path ∨ n.path ∈ strictPrefixPaths items) := by
  obtain ⟨cs', hbt, hwf, hiff, hexp⟩ := buildTree_inv items hnd hpf
  have hch : (buildTree items).children = cs' := by
    rw [hbt, TreeNode.children_node]
  rw [hch]
  have hinj := List.inj_on_of_nodup_map hnd
  refine ⟨walk_paths_nodup cs' hwf, ?_, ?_, ?_⟩
  · intro r hr
    have hcl : InClosure items (itemParts r) :=
      ⟨splitStr_ne_nil '/' r.path, r, hr, List.prefix_refl _⟩
    have hsome := (hiff (itemParts r)).2 hcl
    cases hl : lookupSeg (itemParts r) cs' with
    | none =>
      rw [hl] at hsome
      simp at hsome
    | some n =>
      obtain ⟨hp, hd⟩ := hexp (itemParts r) n hl
      have hnp : n.path = r.path := by
        rw [hp]
        exact joinSegs_split r.path
      refine ⟨n, lookupSeg_mem_walkL (itemParts r) cs' n hl, hnp, ?_⟩
      rcases hd with ⟨r', hr', hrq, h1, h2, h3⟩ | ⟨hall, -, -, -⟩
      · have hpr : r'.path = r.path := by
          have e1 : joinSegs (itemParts r') = r'.path := joinSegs_split r'.path
          have e2 : joinSegs (itemParts r) = r.path := joinSegs_split r.path
          rw [← e1, ← e2, hrq]
        have hrr : r' = r := hinj hr' hr hpr
        subst hrr
        exact ⟨h1, h2, h3⟩
      · exact absurd rfl (hall r hr)
  · intro s hs
    obtain ⟨r, hr, hs2⟩ := List.mem_flatMap.1 hs
    obtain ⟨q, hq1, rfl⟩ := List.mem_map.1 hs2
    obtain ⟨k, hk, hq2⟩ := List.mem_map.1 hq1
    have hk' : k < (itemParts r).length - 1 := List.mem_range.1 hk
    have hpre : q <+: itemParts r := by
      rw [← hq2]
      exact List.take_prefix _ _
    have hqlen : q.length = k + 1 := by
      rw [← hq2, List.length_take]
      omega
    have hqne : q ≠ [] := by
      intro h
      rw [h] at hqlen
      simp at hqlen
    have hcl : InClosure items q := ⟨hqne, r, hr, hpre⟩
    have hsome := (hiff q).2 hcl
    cases hl : lookupSeg q cs' with
    | none =>
      rw [hl] at hsome
      simp at hsome
    | some n =>
      obtain ⟨hp, hd⟩ := hexp q n hl
      refine ⟨n, lookupSeg_mem_walkL q cs' n hl, hp, ?_⟩
      rcases hd with ⟨r', hr', hrq, -, -, -⟩ | ⟨-, h1, h2, h3⟩
      · exfalso
        have hpre' : itemParts r' <+: itemParts r := by
          rw [hrq]
          exact hpre
        have hpp : r'.path = r.path := hpf r' hr' r hr hpre'
        have hrr : r' = r := hinj hr' hr hpp
        have hepq : itemParts r = q := by
          rw [← hrr]
          exact hrq
        rw [hepq] at hk'
        omega
      · exact ⟨h1, h2, h3⟩
  · intro n hn
    obtain ⟨q, hq, hl⟩ := (walk_lookup_aux).2 cs' [] hwf n hn
    have hsome : (lookupSeg q cs').isSome = true := by
      rw [hl]
      rfl
    obtain ⟨-, r, hr, hpre⟩ := (hiff q).1 hsome
    obtain ⟨hp, -⟩ := hexp q n hl
    rcases prefix_path_mem items r hr q hq hpre with h | h
    · left
      rw [hp, h]
      exact List.mem_map_of_mem _ hr
    · right
      rw [hp]
      exact h

/-- Counterexample to claim C1 as stated: `overlapItems` has pairwise-distinct
paths, yet the record with path `"a"` (a proper prefix of `"a/b"`) has no
walked node carrying its type, sha and url — the node at `"a"` stays the
interior node created for `"a/b"`. -/
theorem C1_counterexample :
    (overlapItems.map GitHubItem.path).Nodup ∧
    ¬ (∀ r ∈ overlapItems, ∃ n ∈ walkL (buildTree overlapItems).children,
        n.path = r.path ∧ n.type = r.type ∧ n.sha = r.sha ∧ n.url = r.url) := by
  decide

/-- Witness instantiating `C1_buildTree` at the concrete listing
`exampleItems`, whose hypotheses hold by evaluation. -/
theorem C1_witness :
    (exampleItems.map GitHubItem.path).Nodup ∧
    (∀ r ∈ exampleItems, ∃ n ∈ walkL (buildTree exampleItems).children,
      n.path = r.path ∧ n.type = r.type ∧ n.sha = r.sha ∧ n.url = r.url) :=
  ⟨by decide, (C1_buildTree exampleItems (by decide) (by decide)).2.1⟩
